import Mathlib

/-!
# tcpreplay, `src/common/utils.c`

A shallow embedding of the helpers of `utils.c` and a verification of the
hex byte list decoder `read_hexstring`, of the allocation wrappers
`_our_safe_malloc`, `_our_safe_realloc` and `_our_safe_strdup`, of the
splitter `argv_create` and of `get_layer4`.

Conventions of the embedding.

* A `char`/`u_char` cell is a `Nat` (its code).  A region of memory reached
  through a `char *` is the `List Nat` of the cells from the pointer on; a cell
  past the end of the list reads as NUL, so a list without a NUL is a string
  terminated at its end.
* A pointer into a block is an offset (`Nat`) into the block's list.
* `int` values are `Int`: `read_hexstring` computes no `int` other than
  `numbytes`, which stays at or below `hexlen`, and the `hexlen + 1` it returns
  on truncation.  `unsigned int` is 32 bits wide.
* The heap is the list of live blocks, each with its address.  What a call of
  the C allocator gives back is an input of the model.
* A call ends in an `Outcome`: how it ended, and the destination buffer, the
  heap and the warnings printed at that point.
-/

namespace Utils

/-! ## The C library, as far as `utils.c` uses it -/

/-- The live heap blocks: address and content of each. -/
abbrev Heap := List (Nat × List Nat)

/-- What one successful `malloc` hands out: the address of the new block and
the indeterminate byte found at each of its offsets. -/
structure Fresh where
  addr : Nat
  junk : Nat → Nat

/-- The diagnostics `utils.c` prints with `errx` and `warnx`. -/
inductive Diag where
  /-- The message "safe_strdup() error: Unable to malloc %d bytes", with `strlen(str)`. -/
  | strdup_failed (len : Nat)
  /-- The message "Hex buffer must be > 0". -/
  | hexbuf_not_positive
  /-- The message "Invalid hex byte passed to -2: %s", with the text of the token. -/
  | invalid_hex_byte (l2byte : List Nat)
  /-- The warning "Hex buffer too small for data- skipping data". -/
  | hexbuf_too_small
  deriving DecidableEq, Repr

/-- The ways a call leaves the behaviour defined by ISO C. -/
inductive UB where
  /-- A null pointer reaches `sscanf` as the string to read. -/
  | null_string
  /-- The number converted by `%x` does not fit the `unsigned int` it is stored in. -/
  | conversion_range
  /-- A store outside the object it is aimed at. -/
  | out_of_bounds
  deriving DecidableEq, Repr

/-- How a call ended. -/
inductive Result where
  /-- The function returned this `int`. -/
  | ret (n : Int)
  /-- The function called `errx(1, ...)`: the process ended with this diagnostic. -/
  | fatal (d : Diag)
  /-- The call left defined behaviour. -/
  | undefined (u : UB)
  /-- The bound on loop iterations given to the model was used up. -/
  | out_of_fuel
  deriving DecidableEq, Repr

/-- The end of a call: the result, the destination buffer, the heap, and the
warnings written by `warnx`, all as they are at that point. -/
structure Outcome where
  res : Result
  hex : List Nat
  heap : Heap
  stderr : List Diag
  deriving DecidableEq, Repr

/-- The cells of a text, for writing C string literals. -/
def cstr (s : String) : List Nat := s.toList.map Char.toNat

/-- The call `malloc(len)`: `none` is the null pointer, otherwise a block of
`len` cells of indeterminate content at a new address. -/
def malloc (r : Option Fresh) (len : Nat) : Option (Nat × List Nat) :=
  r.map fun f => (f.addr, (List.range len).map f.junk)

/-- The call `free(p)` for the block at address `a`. -/
def free (heap : Heap) (a : Nat) : Heap :=
  heap.filter fun b => b.1 != a

/-- The call `strlen(s)`: the number of cells before the first NUL. -/
def strlen (s : List Nat) : Nat := (s.takeWhile fun c => c != 0).length

/-- The string found at offset `p` of a buffer: the cells up to the first NUL. -/
def cstring (s : List Nat) (p : Nat) : List Nat := (s.drop p).takeWhile fun c => c != 0

/-- The call `memcpy(dst, src, n)`; `none` when `dst` has fewer than `n` cells. -/
def memcpy (dst src : List Nat) (n : Nat) : Option (List Nat) :=
  if n ≤ dst.length then some ((List.range n).map (fun i => src.getD i 0) ++ dst.drop n) else none

/-- The call `memset(buf, c, n)`; `none` when `buf` has fewer than `n` cells. -/
def memset (buf : List Nat) (c : Nat) (n : Nat) : Option (List Nat) :=
  if n ≤ buf.length then some (List.replicate n c ++ buf.drop n) else none

/-- The one byte store `memcpy(&buf[i], &b, 1)`; `none` when `i` is not an
offset of `buf`. -/
def store (buf : List Nat) (i : Int) (b : Nat) : Option (List Nat) :=
  if 0 ≤ i ∧ i < buf.length then some (buf.set i.toNat b) else none

/-- The call `strspn(p, ",")`: the length of the leading run of commas. -/
def strspn_comma (p : List Nat) : Nat := (p.takeWhile fun c => c == 44).length

/-- The call `strcspn(p, ",")`: the length of the leading run of cells that
are neither a comma nor the terminator. -/
def strcspn_comma (p : List Nat) : Nat := (p.takeWhile fun c => c != 0 && c != 44).length

/-- The call `strtok_r(str, ",", &save)` on the block `s`: `str` is `some`
offset on the first call and `none` (the null pointer) afterwards, when the
scan resumes at `save`.  Gives the token (or `none` for the null pointer), the
block, in which the comma ending the token has become NUL, and the new value of
`save`. -/
def strtok_r (str : Option Nat) (s : List Nat) (save : Nat) : Option Nat × List Nat × Nat :=
  let start := str.getD save
  let b := start + strspn_comma (s.drop start)
  if s.getD b 0 = 0 then (none, s, b)
  else
    let e := b + strcspn_comma (s.drop b)
    if s.getD e 0 = 0 then (some b, s, e)
    else (some b, s.set e 0, e + 1)

/-- The call `isspace(c)` in the C locale. -/
def isspace (c : Nat) : Bool := c == 32 || (9 ≤ c && c ≤ 13)

/-- The value of a hexadecimal digit, `none` for any other cell. -/
def hexval (c : Nat) : Option Nat :=
  if 48 ≤ c ∧ c ≤ 57 then some (c - 48)
  else if 97 ≤ c ∧ c ≤ 102 then some (c - 87)
  else if 65 ≤ c ∧ c ≤ 70 then some (c - 55)
  else none

/-- The call `isxdigit(c)`. -/
def isxdigit (c : Nat) : Bool := (hexval c).isSome

/-- The number written by a run of hexadecimal digits. -/
def digitsVal (ds : List Nat) : Nat := ds.foldl (fun acc c => 16 * acc + (hexval c).getD 0) 0

/-- What `sscanf(str, "%x", &value)` does to `value`. -/
inductive Scan where
  /-- Nothing was converted: `value` keeps what it held. -/
  | no_conversion
  /-- A number was converted and stored. -/
  | conv (v : Nat)
  /-- A number was converted that `unsigned int` cannot hold. -/
  | range
  deriving DecidableEq, Repr

/-- The content of `value` after the call, given its content before. -/
def Scan.assign (sc : Scan) (value : Nat) : Nat :=
  match sc with
  | .conv v => v
  | _ => value

/-- The sign in front of the number: whether it is a minus, and the text behind it. -/
def scan_sign (s1 : List Nat) : Bool × List Nat :=
  (s1.head? == some 45, if s1.head? == some 43 || s1.head? == some 45 then s1.tail else s1)

/-- The text behind an optional `0x` or `0X` that stands in front of a digit. -/
def scan_0x (s2 : List Nat) : List Nat :=
  if s2.getD 0 0 == 48 && (s2.getD 1 0 == 120 || s2.getD 1 0 == 88) && isxdigit (s2.getD 2 0)
  then s2.drop 2 else s2

/-- The conversion of the longest run of hexadecimal digits at the start of `s3`. -/
def scan_digits (neg : Bool) (s3 : List Nat) : Scan :=
  let ds := s3.takeWhile isxdigit
  if ds.isEmpty then .no_conversion
  else
    let v := digitsVal ds
    if v < 2 ^ 32 then .conv (if neg then (2 ^ 32 - v) % 2 ^ 32 else v) else .range

/-- The call `sscanf(str, "%x", &value)` on the string `str`: white space is
skipped, then an optional sign, an optional `0x` or `0X` in front of a digit,
and the longest run of hexadecimal digits are read, as `strtoul` does in base
16.  A minus sign negates in `unsigned int`. -/
def sscanf_x (str : List Nat) : Scan :=
  let s1 := str.dropWhile isspace
  let (neg, s2) := scan_sign s1
  scan_digits neg (scan_0x s2)

/-! ## `utils.c` -/

/-- The function `_our_safe_strdup(str, ...)` (the macro `safe_strdup`), lines 98-111:
`malloc(strlen(str) + 1)`, `errx` when that gives the null pointer, then
`memcpy(newstr, str, strlen(str) + 1)`.  Gives the address and content of the
new block. -/
def _our_safe_strdup (r : Option Fresh) (str : List Nat) : Except Result (Nat × List Nat) :=
  match malloc r (strlen str + 1) with
  | none => .error (.fatal (.strdup_failed (strlen str)))
  | some (a, newstr) =>
    match memcpy newstr str (strlen str + 1) with
    | none => .error (.undefined .out_of_bounds)
    | some newstr => .ok (a, newstr)

/-- Lines 172-176 and again 185-189 of `read_hexstring`:
`sscanf(l2byte, "%x", &value)`, the `value > 0xff` check with its `errx`, the
cast `databyte = (u_char) value` and `memcpy(&hex[numbytes], &databyte, 1)`.
Gives the new `value` and `hex`. -/
def scan_store (l2byte : List Nat) (value : Nat) (hex : List Nat) (numbytes : Int) :
    Except Result (Nat × List Nat) :=
  match sscanf_x l2byte with
  | .range => .error (.undefined .conversion_range)
  | sc =>
    let value := sc.assign value
    if value > 0xff then .error (.fatal (.invalid_hex_byte l2byte))
    else
      let databyte := value % 256
      match store hex numbytes databyte with
      | none => .error (.undefined .out_of_bounds)
      | some hex => .ok (value, hex)

/-- The local variables of `read_hexstring` that the loop changes. -/
structure Frame where
  /-- The content of the block `string` points to. -/
  string : List Nat
  /-- The save pointer of `strtok_r`, an offset into that block. -/
  token : Nat
  hex : List Nat
  value : Nat
  numbytes : Int
  deriving DecidableEq, Repr

/-- The `while` loop of `read_hexstring`, lines 179-190, with what follows it,
lines 192-197.  `a` is the address of the block `string`, `heap` the other live
blocks.  The first argument bounds the number of iterations. -/
def remaining_bytes (a : Nat) (heap : Heap) (hexlen : Int) : Nat → Frame → Outcome
  | 0, f => ⟨.out_of_fuel, f.hex, (a, f.string) :: heap, []⟩
  | fuel + 1, f =>
    match strtok_r none f.string f.token with
    | (none, string, _) =>
      -- numbytes++; free(string); return (numbytes);
      ⟨.ret (f.numbytes + 1), f.hex, free ((a, string) :: heap) a, []⟩
    | (some l2byte, string, token) =>
      let numbytes := f.numbytes + 1
      if numbytes + 1 > hexlen then
        -- warnx(...); return (++numbytes);
        ⟨.ret (numbytes + 1), f.hex, (a, string) :: heap, [.hexbuf_too_small]⟩
      else
        match scan_store (cstring string l2byte) f.value f.hex numbytes with
        | .error r => ⟨r, f.hex, (a, string) :: heap, []⟩
        | .ok (value, hex) =>
          remaining_bytes a heap hexlen fuel ⟨string, token, hex, value, numbytes⟩

/-- What `read_hexstring` finds when it is called: the result of the one
allocator call it makes, the live heap blocks, and the indeterminate content of
its uninitialised local `value`. -/
structure Ctx where
  alloc : Option Fresh
  heap : Heap
  value0 : Nat

/-- The function `read_hexstring(l2string, hex, hexlen)`, lines 151-198.  Every
call of `strtok_r` moves the save pointer forward, so the length of the
duplicated string bounds the iterations of the loop. -/
def read_hexstring (c : Ctx) (l2string : List Nat) (hex : List Nat) (hexlen : Int) : Outcome :=
  match _our_safe_strdup c.alloc l2string with
  | .error r => ⟨r, hex, c.heap, []⟩
  | .ok (a, string) =>
    let heap := (a, string) :: c.heap
    if hexlen ≤ 0 then ⟨.fatal .hexbuf_not_positive, hex, heap, []⟩
    else
      match memset hex 0 hexlen.toNat with
      | none => ⟨.undefined .out_of_bounds, hex, heap, []⟩
      | some hex =>
        match strtok_r (some 0) string 0 with
        | (none, string, _) => ⟨.undefined .null_string, hex, (a, string) :: c.heap, []⟩
        | (some l2byte, string, token) =>
          match scan_store (cstring string l2byte) c.value0 hex 0 with
          | .error r => ⟨r, hex, (a, string) :: c.heap, []⟩
          | .ok (value, hex) =>
            remaining_bytes a c.heap hexlen string.length ⟨string, token, hex, value, 0⟩

/-! ## `utils.c`: the allocation wrappers -/

/-- The diagnostics that `_our_safe_malloc` and `_our_safe_realloc` print with `errx`. -/
inductive AllocDiag where
  /-- The message "safe_malloc() error: Unable to malloc %d bytes", with `len`. -/
  | malloc_failed (len : Nat)
  /-- The message "safe_realloc() error: Unable to grow ptr from %d to %d bytes",
  with `oldlen` and `len`. -/
  | realloc_failed (oldlen len : Nat)
  deriving DecidableEq, Repr

/-- How a call of an allocation wrapper ends. -/
inductive Alloc where
  /-- The wrapper returned the pointer `addr` to a block with these cells. -/
  | block (addr : Nat) (cells : List Nat)
  /-- The wrapper called `errx(1, ...)`. -/
  | fatal (d : AllocDiag)
  /-- A store outside the block it is aimed at. -/
  | out_of_bounds
  /-- A store through a pointer to a block that `realloc` has released. -/
  | stale_pointer
  deriving DecidableEq, Repr

/-- The call `realloc(ptr, len)` on a block with the cells `old`: `none` is the
null pointer, otherwise a block of `len` cells that begins with the cells of
`old` (as many as fit) and goes on with indeterminate cells, at the address the
allocator chooses (the old one when the block is resized in place). -/
def realloc (r : Option Fresh) (old : List Nat) (len : Nat) : Option (Nat × List Nat) :=
  r.map fun f => (f.addr, (List.range len).map fun i => if i < old.length then old.getD i 0
    else f.junk i)

/-- The call `memset(&buf[off], c, n)`; `none` when it leaves `buf`. -/
def memset_at (buf : List Nat) (off : Nat) (c : Nat) (n : Nat) : Option (List Nat) :=
  if off + n ≤ buf.length then some (buf.take off ++ (List.replicate n c ++ buf.drop (off + n)))
  else none

/-- The function `_our_safe_malloc(len, ...)` (the macro `safe_malloc`), lines 47-65:
`malloc(len)`, `errx` when that gives the null pointer, then `memset(ptr, 0, len)`. -/
def _our_safe_malloc (r : Option Fresh) (len : Nat) : Alloc :=
  match malloc r len with
  | none => .fatal (.malloc_failed len)
  | some (a, ptr) =>
    match memset ptr 0 len with
    | none => .out_of_bounds
    | some ptr => .block a ptr

/-- The function `_our_safe_realloc(ptr, len, ...)` (the macro `safe_realloc`),
lines 72-92, called on the block at address `ptr` with the cells `cells`.
`ptr_size` is `sizeof(ptr)`, the size of a pointer, which the function takes for
the old length.  The `memset` goes through `charptr`, the pointer that was
passed in: it reaches the new block only when `realloc` has left the block in
place. -/
def _our_safe_realloc (ptr_size : Nat) (r : Option Fresh) (ptr : Nat) (cells : List Nat)
    (len : Nat) : Alloc :=
  let oldlen := ptr_size
  match realloc r cells len with
  | none => .fatal (.realloc_failed oldlen len)
  | some (newptr, newcells) =>
    if oldlen < len then
      if newptr = ptr then
        match memset_at newcells oldlen 0 (len - oldlen - 1) with
        | none => .out_of_bounds
        | some newcells => .block newptr newcells
      else .stale_pointer
    else .block newptr newcells

/-! ## `utils.c`: `argv_create` and `get_layer4` -/

/-- The end of a call of `argv_create`: the result, the cells of the string and
the array `argv`.  An entry of `argv` is `none` for the null pointer and
`some q` for the pointer to offset `q` of the string. -/
structure ArgvOutcome where
  res : Result
  p : List Nat
  argv : List (Option Nat)
  deriving DecidableEq, Repr

/-- The store `argv[i] = q`; `none` when `i` is not an index of `argv`. -/
def store_ptr (argv : List (Option Nat)) (i : Int) (q : Option Nat) :
    Option (List (Option Nat)) :=
  if 0 ≤ i ∧ i < argv.length then some (argv.set i.toNat q) else none

/-- The first inner loop of `argv_create`, lines 208-209:
`while (*p != 0 && isspace((int)*p)) *p++ = 0;`.  Gives the cells and `p`; the
first argument bounds the iterations. -/
def skip_blanks : Nat → List Nat → Nat → Option (List Nat × Nat)
  | 0, _, _ => none
  | fuel + 1, s, p =>
    if s.getD p 0 != 0 && isspace (s.getD p 0) then skip_blanks fuel (s.set p 0) (p + 1)
    else some (s, p)

/-- The second inner loop of `argv_create`, lines 215-216:
`while (*p != 0 && !isspace((int)*p)) p++;`.  Gives `p`; the first argument
bounds the iterations. -/
def skip_word : Nat → List Nat → Nat → Option Nat
  | 0, _, _ => none
  | fuel + 1, s, p =>
    if s.getD p 0 != 0 && !isspace (s.getD p 0) then skip_word fuel s (p + 1) else some p

/-- The `for` loop of `argv_create`, lines 207-217, from the test of its
condition on.  Gives `i`, the cells, `p` and `argv` as they are when the loop is
left.  The first argument bounds the iterations; the inner loops stop at the
latest at the end of the cells. -/
def argv_loop (argc : Int) : Nat → Int → List Nat → Nat → List (Option Nat) →
    Except ArgvOutcome (Int × List Nat × Nat × List (Option Nat))
  | 0, i, s, p, argv =>
    if i < argc - 1 then .error ⟨.out_of_fuel, s, argv⟩ else .ok (i, s, p, argv)
  | fuel + 1, i, s, p, argv =>
    if i < argc - 1 then
      match skip_blanks (s.length + 1) s p with
      | none => .error ⟨.out_of_fuel, s, argv⟩
      | some (s, p) =>
        if s.getD p 0 = 0 then .ok (i, s, p, argv)
        else
          match store_ptr argv i (some p) with
          | none => .error ⟨.undefined .out_of_bounds, s, argv⟩
          | some argv =>
            match skip_word (s.length + 1) s p with
            | none => .error ⟨.out_of_fuel, s, argv⟩
            | some p => argv_loop argc fuel (i + 1) s p argv
    else .ok (i, s, p, argv)

/-- The function `argv_create(p, argc, argv)`, lines 202-222.  The loop runs at
most `argc - 1` times.  The store `p[0] = 0` behind the loop falls on a cell of
the string or on its terminator. -/
def argv_create (p : List Nat) (argc : Int) (argv : List (Option Nat)) : ArgvOutcome :=
  match argv_loop argc (argc - 1).toNat 0 p 0 argv with
  | .error o => o
  | .ok (i, s, q, argv) =>
    let s := s.set q 0
    match store_ptr argv i none with
    | none => ⟨.undefined .out_of_bounds, s, argv⟩
    | some argv => ⟨.ret i, s, argv⟩

/-- The function `get_layer4(ip_hdr)`, lines 228-234, on the header at address
`ip_hdr` whose field `ip_hl` holds `ip_hl`: the pointer is converted to
`u_int32_t *`, so that the addition counts in units of four bytes. -/
def get_layer4 (ip_hdr : Nat) (ip_hl : Nat) : Nat := ip_hdr + 4 * ip_hl

/-! ## The tokens of a description -/

/-- The non-empty comma-separated tokens of a text, in order. -/
def tokens (d : List Nat) : List (List Nat) := (d.splitOn 44).filter fun t => !t.isEmpty

/-! ## The decoder seen on the list of tokens

The definitions from here on serve the proofs and the statements; the code is
embedded above. -/

/-- What a call of `read_hexstring` shows, the content of the duplicated
string left aside: the result, the destination buffer, the warnings, and
whether the duplicate has been released. -/
structure Seen where
  res : Result
  hex : List Nat
  stderr : List Diag
  freed : Bool
  deriving DecidableEq, Repr

/-- The outcome that shows `v`, for a duplicate at address `a` with content
`s` and the other live blocks `heap`. -/
def Seen.outcome (v : Seen) (a : Nat) (s : List Nat) (heap : Heap) : Outcome :=
  ⟨v.res, v.hex, if v.freed then free ((a, s) :: heap) a else (a, s) :: heap, v.stderr⟩

/-- The loop of `read_hexstring` as it runs on the tokens still to come; that
`remaining_bytes` does exactly this is `remaining_bytes_eq`. -/
def decode_rest (hexlen : Int) : List (List Nat) → Nat → List Nat → Int → Seen
  | [], _, hex, numbytes => ⟨.ret (numbytes + 1), hex, [], true⟩
  | t :: ts, value, hex, numbytes =>
    if numbytes + 1 + 1 > hexlen then ⟨.ret (numbytes + 1 + 1), hex, [.hexbuf_too_small], false⟩
    else
      match scan_store t value hex (numbytes + 1) with
      | .error r => ⟨r, hex, [], false⟩
      | .ok (value, hex) => decode_rest hexlen ts value hex (numbytes + 1)

/-- The body of `read_hexstring` from the first `strtok_r` on as it runs on the
tokens of the description; that `read_hexstring` does exactly this is
`read_hexstring_eq`. -/
def decode (hexlen : Int) (toks : List (List Nat)) (value0 : Nat) (hex : List Nat) : Seen :=
  match toks with
  | [] => ⟨.undefined .null_string, hex, [], false⟩
  | t :: ts =>
    match scan_store t value0 hex 0 with
    | .error r => ⟨r, hex, [], false⟩
    | .ok (value, hex) => decode_rest hexlen ts value hex 0

/-- A token that is a hexadecimal number: a non-empty run of hexadecimal digits. -/
def isHexNumber (t : List Nat) : Bool := !t.isEmpty && t.all isxdigit

/-- A token that is a hexadecimal number with a value of at most `0xFF`. -/
def isHexByte (t : List Nat) : Bool := isHexNumber t && decide (digitsVal t ≤ 0xff)

/-- The number `%x` converts from a token (0 when it converts none). -/
def scanned (t : List Nat) : Nat := (sscanf_x t).assign 0

/-- A token from which `%x` converts a number of at most `0xFF`. -/
def scansByte (t : List Nat) : Bool :=
  match sscanf_x t with
  | .conv v => decide (v ≤ 0xff)
  | _ => false

/-- The buffer after `memset(hex, 0, hexlen)`. -/
def cleared (hex : List Nat) (hexlen : Int) : List Nat :=
  List.replicate hexlen.toNat 0 ++ hex.drop hexlen.toNat

/-- A token that begins with a hexadecimal byte, and what follows the digits
does not begin with `x` or `X`. -/
def startsWithHexByte (t : List Nat) : Bool :=
  isHexByte (t.takeWhile isxdigit) &&
    !((t.dropWhile isxdigit).head? == some 120 || (t.dropWhile isxdigit).head? == some 88)

/-- Every run of consecutive commas of a text collapsed into one comma. -/
def collapse_commas : List Nat → List Nat
  | [] => []
  | [c] => [c]
  | c :: d :: r =>
    if c == 44 && d == 44 then collapse_commas (d :: r) else c :: collapse_commas (d :: r)

/-- A text without its leading commas. -/
def strip_leading_commas (d : List Nat) : List Nat := d.dropWhile fun c => c == 44

/-- A text without its trailing commas. -/
def strip_trailing_commas (d : List Nat) : List Nat :=
  (d.reverse.dropWhile fun c => c == 44).reverse

/-- The description obtained by deleting the leading commas and the trailing
commas and collapsing the runs of consecutive commas into one. -/
def normalize (d : List Nat) : List Nat :=
  collapse_commas (strip_trailing_commas (strip_leading_commas d))

/-- The text in front of the first comma. -/
def first_piece (l : List Nat) : List Nat := l.takeWhile fun c => c != 44

/-- The tokens behind the first comma. -/
def later_tokens (l : List Nat) : List (List Nat) :=
  tokens ((l.dropWhile fun c => c != 44).drop 1)

/-- A context for the examples: the allocator succeeds and hands out a block
at address 1000, no other block is live, and `value` holds `0x12345678`. -/
def ctx0 : Ctx := ⟨some ⟨1000, fun _ => 0xEE⟩, [], 0x12345678⟩

/-- The words of a text: its maximal runs of characters that are not white
space, in order. -/
def words (t : List Nat) : List (List Nat) := (t.splitOnP isspace).filter fun w => !w.isEmpty

/-- The cells of the live block at address `a`, `none` when no block is live there. -/
def Heap.block (heap : Heap) (a : Nat) : Option (List Nat) :=
  (heap.find? fun b => b.1 == a).map Prod.snd

/-- The heap after the store of `b` at offset `i` of the block at address `a`. -/
def Heap.store (heap : Heap) (a i b : Nat) : Heap :=
  heap.map fun blk => if blk.1 == a then (blk.1, blk.2.set i b) else blk

/-- Between the cells `s` and the cells `s2` nothing has changed but white space
that has become NUL. -/
def BlanksCleared (s s2 : List Nat) : Prop :=
  s2.length = s.length ∧
    ∀ j, s2.getD j 0 ≠ s.getD j 0 → isspace (s.getD j 0) = true ∧ s2.getD j 0 = 0

/-- The cell at offset `q` is NUL or white space. -/
def AtGap (s : List Nat) (q : Nat) : Prop := s.getD q 0 = 0 ∨ isspace (s.getD q 0) = true

/-- The word `w`, which has no NUL, sits at offset `q` of the cells and is
followed by NUL or by the end of the cells. -/
def Sits (cells : List Nat) (q : Nat) (w : List Nat) : Prop :=
  0 ∉ w ∧ ∃ front back, cells = front ++ (w ++ back) ∧ front.length = q ∧ back.headD 0 = 0

/-! ## Tokens: how a text decomposes -/

theorem tokens_nil : tokens [] = [] := by
  simp [tokens]

theorem tokens_comma_cons (l : List Nat) : tokens (44 :: l) = tokens l := by
  simp [tokens, List.splitOn]

theorem tokens_commas_append (cs l : List Nat) (hcs : ∀ c ∈ cs, c = 44) :
    tokens (cs ++ l) = tokens l := by
  induction cs with
  | nil => rfl
  | cons c cs ih =>
    have hc : c = 44 := hcs c (List.mem_cons_self _ _)
    subst hc
    rw [List.cons_append, tokens_comma_cons]
    exact ih fun x hx => hcs x (List.mem_cons_of_mem _ hx)

theorem tokens_single (tok : List Nat) (hne : tok ≠ []) (hc : 44 ∉ tok) :
    tokens tok = [tok] := by
  have h : tok.splitOn 44 = [tok] := by
    refine List.splitOnP_eq_single _ _ ?_
    intro x hx hx44
    exact hc (by rw [← eq_of_beq hx44]; exact hx)
  have hemp : (!tok.isEmpty) = true := by cases tok <;> simp_all
  rw [tokens, h, List.filter_cons, if_pos hemp, List.filter_nil]

theorem tokens_tok_comma (tok l : List Nat) (hne : tok ≠ []) (hc : 44 ∉ tok) :
    tokens (tok ++ 44 :: l) = tok :: tokens l := by
  have h : (tok ++ 44 :: l).splitOn 44 = tok :: l.splitOn 44 := by
    refine List.splitOnP_first _ _ ?_ 44 (by simp) l
    intro x hx hx44
    exact hc (by rw [← eq_of_beq hx44]; exact hx)
  have hemp : (!tok.isEmpty) = true := by cases tok <;> simp_all
  rw [tokens, h, List.filter_cons, if_pos hemp, tokens]

/-- Every text is a run of commas followed by nothing, by a last token, or by
a token, a comma and a shorter text. -/
theorem text_cases (rest : List Nat) :
    ∃ cs : List Nat, (∀ c ∈ cs, c = 44) ∧
      ((rest = cs ∧ tokens rest = []) ∨
        ∃ tok : List Nat, tok ≠ [] ∧ 44 ∉ tok ∧
          ((rest = cs ++ tok ∧ tokens rest = [tok]) ∨
            ∃ r3 : List Nat, rest = cs ++ (tok ++ 44 :: r3) ∧ tokens rest = tok :: tokens r3)) := by
  refine ⟨rest.takeWhile (fun c => c == 44), ?_, ?_⟩
  · intro c hc
    have := List.mem_takeWhile_imp hc
    simpa using this
  · have hsplit : rest = rest.takeWhile (fun c => c == 44) ++ rest.dropWhile (fun c => c == 44) :=
      (List.takeWhile_append_dropWhile _ _).symm
    have hcs : ∀ c ∈ rest.takeWhile (fun c => c == 44), c = 44 := by
      intro c hc
      have := List.mem_takeWhile_imp hc
      simpa using this
    generalize hr : rest.dropWhile (fun c => c == 44) = r at hsplit
    generalize rest.takeWhile (fun c => c == 44) = cs at hsplit hcs
    cases r with
    | nil =>
      left
      rw [List.append_nil] at hsplit
      refine ⟨hsplit, ?_⟩
      rw [hsplit]
      have := tokens_commas_append cs [] hcs
      rw [List.append_nil] at this
      rw [this, tokens_nil]
    | cons x xs =>
      right
      have hx : x ≠ 44 := by
        have := List.head_dropWhile_not (fun c => c == 44) rest (by rw [hr]; simp)
        simp [hr] at this
        exact this
      have hsplit2 : x :: xs = (x :: xs).takeWhile (fun c => c != 44) ++
          (x :: xs).dropWhile (fun c => c != 44) := (List.takeWhile_append_dropWhile _ _).symm
      have htok : ∀ c ∈ (x :: xs).takeWhile (fun c => c != 44), c ≠ 44 := by
        intro c hc
        have := List.mem_takeWhile_imp hc
        simpa using this
      have hne : (x :: xs).takeWhile (fun c => c != 44) ≠ [] := by
        simp [List.takeWhile_cons, hx]
      generalize hr2 : (x :: xs).dropWhile (fun c => c != 44) = r2 at hsplit2
      generalize (x :: xs).takeWhile (fun c => c != 44) = tok at hsplit2 htok hne
      refine ⟨tok, hne, fun h => htok 44 h rfl, ?_⟩
      cases r2 with
      | nil =>
        left
        rw [List.append_nil] at hsplit2
        rw [hsplit2] at hsplit
        refine ⟨hsplit, ?_⟩
        rw [hsplit, tokens_commas_append cs tok hcs]
        exact tokens_single tok hne fun h => htok 44 h rfl
      | cons y r3 =>
        right
        have hy : y = 44 := by
          have := List.head_dropWhile_not (fun c => c != 44) (x :: xs) (by rw [hr2]; simp)
          simp [hr2] at this
          exact this
        subst hy
        rw [hsplit2] at hsplit
        refine ⟨r3, hsplit, ?_⟩
        rw [hsplit, tokens_commas_append cs _ hcs]
        exact tokens_tok_comma tok r3 hne fun h => htok 44 h rfl

/-! ## `strtok_r` on a decomposed block -/

theorem takeWhile_run {p : Nat → Bool} (cs l : List Nat) (h : ∀ c ∈ cs, p c = true) :
    (cs ++ l).takeWhile p = cs ++ l.takeWhile p := by
  induction cs with
  | nil => rfl
  | cons c cs ih =>
    rw [List.cons_append, List.takeWhile_cons, h c (List.mem_cons_self _ _)]
    simp only [if_true, List.cons_append]
    rw [ih fun x hx => h x (List.mem_cons_of_mem _ hx)]

theorem getD_append_length (pre : List Nat) (x : Nat) (post : List Nat) :
    (pre ++ x :: post).getD pre.length 0 = x := by
  induction pre with
  | nil => rfl
  | cons c cs ih => simpa using ih

theorem set_append_length (pre : List Nat) (x y : Nat) (post : List Nat) :
    (pre ++ x :: post).set pre.length y = pre ++ y :: post := by
  induction pre with
  | nil => rfl
  | cons c cs ih => simp [ih]

theorem drop_append_length (pre l : List Nat) : (pre ++ l).drop pre.length = l := by
  induction pre with
  | nil => rfl
  | cons c cs ih => simp

theorem strspn_comma_run (cs : List Nat) (x : Nat) (post : List Nat)
    (hcs : ∀ c ∈ cs, c = 44) (hx : x ≠ 44) : strspn_comma (cs ++ x :: post) = cs.length := by
  unfold strspn_comma
  rw [takeWhile_run cs _ (by intro c hc; simp [hcs c hc])]
  simp [List.takeWhile_cons, hx]

theorem strcspn_comma_run (tok : List Nat) (x : Nat) (post : List Nat)
    (h44 : 44 ∉ tok) (h0 : 0 ∉ tok) (hx : x = 0 ∨ x = 44) :
    strcspn_comma (tok ++ x :: post) = tok.length := by
  unfold strcspn_comma
  rw [takeWhile_run tok _ (by
    intro c hc
    have h1 : c ≠ 0 := fun h => h0 (h ▸ hc)
    have h2 : c ≠ 44 := fun h => h44 (h ▸ hc)
    simp [h1, h2])]
  rcases hx with rfl | rfl <;> simp [List.takeWhile_cons]

theorem cstring_append (pre tok post : List Nat) (h0 : 0 ∉ tok) :
    cstring (pre ++ (tok ++ 0 :: post)) pre.length = tok := by
  unfold cstring
  rw [drop_append_length, takeWhile_run tok _ (by
    intro c hc
    have h1 : c ≠ 0 := fun h => h0 (h ▸ hc)
    simp [h1])]
  simp [List.takeWhile_cons]

/-- No token is left: `strtok_r` gives the null pointer and leaves the block as it is. -/
theorem strtok_r_none (str : Option Nat) (save : Nat) (pre cs post : List Nat)
    (hstart : str.getD save = pre.length) (hcs : ∀ c ∈ cs, c = 44) :
    strtok_r str (pre ++ (cs ++ 0 :: post)) save
      = (none, pre ++ (cs ++ 0 :: post), pre.length + cs.length) := by
  have hb : strspn_comma (List.drop pre.length (pre ++ (cs ++ 0 :: post))) = cs.length := by
    rw [drop_append_length]
    exact strspn_comma_run cs 0 post hcs (by decide)
  have hg : (pre ++ (cs ++ 0 :: post)).getD (pre.length + cs.length) 0 = 0 := by
    have := getD_append_length (pre ++ cs) 0 post
    simp only [List.append_assoc, List.length_append] at this
    exact this
  simp only [strtok_r, hstart, hb, hg, if_true]

/-- The last token runs up to the terminator: the block is left as it is. -/
theorem strtok_r_last (str : Option Nat) (save : Nat) (pre cs tok post : List Nat)
    (hstart : str.getD save = pre.length) (hcs : ∀ c ∈ cs, c = 44)
    (hne : tok ≠ []) (h44 : 44 ∉ tok) (h0 : 0 ∉ tok) :
    strtok_r str (pre ++ (cs ++ (tok ++ 0 :: post))) save
      = (some (pre.length + cs.length), pre ++ (cs ++ (tok ++ 0 :: post)),
          pre.length + cs.length + tok.length) := by
  obtain ⟨x, xs, rfl⟩ := List.exists_cons_of_ne_nil hne
  have hx44 : x ≠ 44 := fun h => h44 (h ▸ List.mem_cons_self _ _)
  have hx0 : x ≠ 0 := fun h => h0 (h ▸ List.mem_cons_self _ _)
  have hb : strspn_comma (List.drop pre.length (pre ++ (cs ++ (x :: xs ++ 0 :: post))))
      = cs.length := by
    rw [drop_append_length]
    exact strspn_comma_run cs x (xs ++ 0 :: post) hcs hx44
  have hg : (pre ++ (cs ++ (x :: xs ++ 0 :: post))).getD (pre.length + cs.length) 0 = x := by
    have := getD_append_length (pre ++ cs) x (xs ++ 0 :: post)
    simp only [List.append_assoc, List.length_append] at this
    exact this
  have he : strcspn_comma (List.drop (pre.length + cs.length)
      (pre ++ (cs ++ (x :: xs ++ 0 :: post)))) = (x :: xs).length := by
    have hd := drop_append_length (pre ++ cs) (x :: xs ++ 0 :: post)
    rw [List.length_append, List.append_assoc] at hd
    rw [hd]
    exact strcspn_comma_run (x :: xs) 0 post h44 h0 (Or.inl rfl)
  have hg2 : (pre ++ (cs ++ (x :: xs ++ 0 :: post))).getD
      (pre.length + cs.length + (x :: xs).length) 0 = 0 := by
    have := getD_append_length (pre ++ cs ++ (x :: xs)) 0 post
    simp only [List.append_assoc, List.length_append, ← Nat.add_assoc] at this
    exact this
  simp only [strtok_r, hstart, hb, hg, he, hg2, if_neg hx0, if_true]

/-- A token is followed by a comma: the comma becomes NUL and the scan will
resume behind it. -/
theorem strtok_r_mid (str : Option Nat) (save : Nat) (pre cs tok post : List Nat)
    (hstart : str.getD save = pre.length) (hcs : ∀ c ∈ cs, c = 44)
    (hne : tok ≠ []) (h44 : 44 ∉ tok) (h0 : 0 ∉ tok) :
    strtok_r str (pre ++ (cs ++ (tok ++ 44 :: post))) save
      = (some (pre.length + cs.length), pre ++ (cs ++ (tok ++ 0 :: post)),
          pre.length + cs.length + tok.length + 1) := by
  obtain ⟨x, xs, rfl⟩ := List.exists_cons_of_ne_nil hne
  have hx44 : x ≠ 44 := fun h => h44 (h ▸ List.mem_cons_self _ _)
  have hx0 : x ≠ 0 := fun h => h0 (h ▸ List.mem_cons_self _ _)
  have hb : strspn_comma (List.drop pre.length (pre ++ (cs ++ (x :: xs ++ 44 :: post))))
      = cs.length := by
    rw [drop_append_length]
    exact strspn_comma_run cs x (xs ++ 44 :: post) hcs hx44
  have hg : (pre ++ (cs ++ (x :: xs ++ 44 :: post))).getD (pre.length + cs.length) 0 = x := by
    have := getD_append_length (pre ++ cs) x (xs ++ 44 :: post)
    simp only [List.append_assoc, List.length_append] at this
    exact this
  have he : strcspn_comma (List.drop (pre.length + cs.length)
      (pre ++ (cs ++ (x :: xs ++ 44 :: post)))) = (x :: xs).length := by
    have hd := drop_append_length (pre ++ cs) (x :: xs ++ 44 :: post)
    rw [List.length_append, List.append_assoc] at hd
    rw [hd]
    exact strcspn_comma_run (x :: xs) 44 post h44 h0 (Or.inr rfl)
  have hg2 : (pre ++ (cs ++ (x :: xs ++ 44 :: post))).getD
      (pre.length + cs.length + (x :: xs).length) 0 = 44 := by
    have := getD_append_length (pre ++ cs ++ (x :: xs)) 44 post
    simp only [List.append_assoc, List.length_append, ← Nat.add_assoc] at this
    exact this
  have hset : (pre ++ (cs ++ (x :: xs ++ 44 :: post))).set
      (pre.length + cs.length + (x :: xs).length) 0 = pre ++ (cs ++ (x :: xs ++ 0 :: post)) := by
    have := set_append_length (pre ++ cs ++ (x :: xs)) 44 0 post
    simp only [List.append_assoc, List.length_append, ← Nat.add_assoc] at this
    exact this
  simp only [strtok_r, hstart, hb, hg, he, hg2, hset, if_neg hx0]
  simp

/-! ## The loop and the tokens -/

theorem cstring_at (pre cs tok post : List Nat) (h0 : 0 ∉ tok) :
    cstring (pre ++ (cs ++ (tok ++ 0 :: post))) (pre.length + cs.length) = tok := by
  have := cstring_append (pre ++ cs) tok post h0
  simp only [List.append_assoc, List.length_append] at this
  exact this

/-- One iteration of the loop on a token `t` that `strtok_r` has just given. -/
theorem remaining_bytes_step (a : Nat) (heap : Heap) (hexlen : Int) (fuel : Nat)
    (f : Frame) (b : Nat) (s : List Nat) (save : Nat) (t : List Nat) (ts : List (List Nat))
    (hstr : strtok_r none f.string f.token = (some b, s, save)) (ht : cstring s b = t)
    (ih : ∀ value hex, ∃ s2 : List Nat,
      remaining_bytes a heap hexlen fuel ⟨s, save, hex, value, f.numbytes + 1⟩
        = (decode_rest hexlen ts value hex (f.numbytes + 1)).outcome a s2 heap) :
    ∃ s2 : List Nat, remaining_bytes a heap hexlen (fuel + 1) f
      = (decode_rest hexlen (t :: ts) f.value f.hex f.numbytes).outcome a s2 heap := by
  rw [remaining_bytes, hstr]
  simp only [decode_rest, ht]
  by_cases hfull : f.numbytes + 1 + 1 > hexlen
  · rw [if_pos hfull, if_pos hfull]
    exact ⟨s, rfl⟩
  · rw [if_neg hfull, if_neg hfull]
    cases hsc : scan_store t f.value f.hex (f.numbytes + 1) with
    | error r => exact ⟨s, rfl⟩
    | ok vh =>
      obtain ⟨v, h⟩ := vh
      exact ih v h

/-- The loop of `read_hexstring`, started with the save pointer in front of the
text `rest`, does what `decode_rest` does on the tokens of `rest`; the bound on
the iterations is not reached. -/
theorem remaining_bytes_eq (a : Nat) (heap : Heap) (hexlen : Int) :
    ∀ (fuel : Nat) (rest pre : List Nat) (value : Nat) (hex : List Nat) (numbytes : Int),
      0 ∉ rest → rest.length < fuel →
      ∃ s2 : List Nat,
        remaining_bytes a heap hexlen fuel ⟨pre ++ (rest ++ [0]), pre.length, hex, value, numbytes⟩
          = (decode_rest hexlen (tokens rest) value hex numbytes).outcome a s2 heap := by
  intro fuel
  induction fuel with
  | zero => intro rest pre value hex numbytes _ h; exact absurd h (Nat.not_lt_zero _)
  | succ fuel ih =>
    intro rest pre value hex numbytes h0 hfuel
    obtain ⟨cs, hcs, hcase⟩ := text_cases rest
    rcases hcase with ⟨hrest, htok⟩ | ⟨tok, hne, h44, hcase⟩
    · -- only commas are left
      subst hrest
      rw [htok, remaining_bytes]
      have := strtok_r_none none pre.length pre rest [] rfl hcs
      simp only [this]
      exact ⟨_, rfl⟩
    · rcases hcase with ⟨hrest, htok⟩ | ⟨r3, hrest, htok⟩
      · -- the last token
        subst hrest
        have h0t : 0 ∉ tok := fun h => h0 (List.mem_append_right _ h)
        rw [htok]
        have hstr := strtok_r_last none pre.length pre cs tok [] rfl hcs hne h44 h0t
        have hbuf : pre ++ (cs ++ tok ++ [0]) = pre ++ (cs ++ (tok ++ [0])) := by
          rw [List.append_assoc]
        rw [hbuf]
        refine remaining_bytes_step a heap hexlen fuel _ _ _ _ tok [] hstr
          (cstring_at pre cs tok [] h0t) ?_
        intro v h
        have hpre : pre ++ (cs ++ (tok ++ [0])) = (pre ++ cs ++ tok) ++ ([] ++ [0]) := by
          simp only [List.append_assoc, List.nil_append]
        have hlen : pre.length + cs.length + tok.length = (pre ++ cs ++ tok).length := by
          simp only [List.length_append]
        have := ih [] (pre ++ cs ++ tok) v h (numbytes + 1) (List.not_mem_nil 0)
          (by
            have : (cs ++ tok).length < fuel + 1 := hfuel
            have hpos : 0 < tok.length := List.length_pos.mpr hne
            simp only [List.length_append] at this
            simp only [List.length_nil]
            omega)
        rw [tokens_nil] at this
        simp only [hpre, hlen]
        exact this
      · -- a token followed by a comma
        subst hrest
        have h0t : 0 ∉ tok := fun h =>
          h0 (List.mem_append_right _ (List.mem_append_left _ h))
        have h0r : 0 ∉ r3 := fun h =>
          h0 (List.mem_append_right _ (List.mem_append_right _ (List.mem_cons_of_mem _ h)))
        rw [htok]
        have hstr := strtok_r_mid none pre.length pre cs tok (r3 ++ [0]) rfl hcs hne h44 h0t
        have hbuf : pre ++ (cs ++ (tok ++ 44 :: r3) ++ [0])
            = pre ++ (cs ++ (tok ++ 44 :: (r3 ++ [0]))) := by
          simp only [List.append_assoc, List.cons_append]
        rw [hbuf]
        refine remaining_bytes_step a heap hexlen fuel _ _ _ _ tok (tokens r3) hstr
          (cstring_at pre cs tok (r3 ++ [0]) h0t) ?_
        intro v h
        have hpre : pre ++ (cs ++ (tok ++ 0 :: (r3 ++ [0])))
            = (pre ++ cs ++ tok ++ [0]) ++ (r3 ++ [0]) := by
          simp only [List.append_assoc, List.cons_append, List.nil_append]
        have hlen : pre.length + cs.length + tok.length + 1 = (pre ++ cs ++ tok ++ [0]).length := by
          simp only [List.length_append, List.length_singleton]
        have := ih r3 (pre ++ cs ++ tok ++ [0]) v h (numbytes + 1) h0r
          (by
            have : (cs ++ (tok ++ 44 :: r3)).length < fuel + 1 := hfuel
            simp only [List.length_append, List.length_cons] at this
            omega)
        simp only [hpre, hlen]
        exact this

/-! ## The whole function and the tokens -/

theorem copy_cells (str : List Nat) :
    (List.range (strlen str + 1)).map (fun i => str.getD i 0) = cstring str 0 ++ [0] := by
  unfold strlen cstring
  rw [List.drop_zero]
  induction str with
  | nil => rfl
  | cons c cs ih =>
    by_cases hc : c = 0
    · subst hc
      rfl
    · have hc2 : (c != 0) = true := by simp [hc]
      rw [List.takeWhile_cons, if_pos hc2, List.length_cons, List.range_succ_eq_map,
        List.map_cons, List.map_map, List.cons_append, ← ih]
      rfl

theorem cstring_no_nul (s : List Nat) (p : Nat) : 0 ∉ cstring s p := by
  intro h
  have := List.mem_takeWhile_imp h
  simp at this

theorem cstring_length (str : List Nat) : (cstring str 0).length = strlen str := by
  simp [cstring, strlen]

/-- When the allocator succeeds, the duplicate holds the text and its terminator. -/
theorem strdup_ok (f : Fresh) (str : List Nat) :
    _our_safe_strdup (some f) str = .ok (f.addr, cstring str 0 ++ [0]) := by
  simp only [_our_safe_strdup, malloc, Option.map_some', memcpy, List.length_map,
    List.length_range, le_refl, if_true, copy_cells]
  rw [List.drop_of_length_le (by simp)]
  simp

/-- When the allocator fails, `_our_safe_strdup` ends the process. -/
theorem strdup_failed (str : List Nat) :
    _our_safe_strdup none str = .error (.fatal (.strdup_failed (strlen str))) := rfl

/-- The function `read_hexstring`, called with a positive `hexlen` on a
destination of at least `hexlen` cells while the allocator succeeds, does what
`decode` does on the tokens of the description. -/
theorem read_hexstring_eq (c : Ctx) (f : Fresh) (hc : c.alloc = some f)
    (l2string hex : List Nat) (hexlen : Int) (hpos : 0 < hexlen)
    (hlen : hexlen.toNat ≤ hex.length) :
    ∃ s2 : List Nat, read_hexstring c l2string hex hexlen
      = (decode hexlen (tokens (cstring l2string 0)) c.value0 (cleared hex hexlen)).outcome
          f.addr s2 c.heap := by
  have h0 : 0 ∉ cstring l2string 0 := cstring_no_nul _ _
  simp only [read_hexstring, hc, strdup_ok, if_neg (not_le.mpr hpos), memset, if_pos hlen]
  generalize cstring l2string 0 = text at h0
  change ∃ s2 : List Nat, (match strtok_r (some 0) (text ++ [0]) 0 with
    | (none, string, _) =>
      (⟨.undefined .null_string, cleared hex hexlen, (f.addr, string) :: c.heap, []⟩ : Outcome)
    | (some l2byte, string, token) =>
      match scan_store (cstring string l2byte) c.value0 (cleared hex hexlen) 0 with
      | .error r => ⟨r, cleared hex hexlen, (f.addr, string) :: c.heap, []⟩
      | .ok (value, hex) =>
        remaining_bytes f.addr c.heap hexlen string.length ⟨string, token, hex, value, 0⟩)
      = (decode hexlen (tokens text) c.value0 (cleared hex hexlen)).outcome f.addr s2 c.heap
  obtain ⟨cs, hcs, hcase⟩ := text_cases text
  rcases hcase with ⟨hrest, htok⟩ | ⟨tok, hne, h44, hcase⟩
  · subst hrest
    have hstr := strtok_r_none (some 0) 0 [] text [] rfl hcs
    rw [List.nil_append] at hstr
    rw [htok, hstr]
    exact ⟨_, rfl⟩
  · rcases hcase with ⟨hrest, htok⟩ | ⟨r3, hrest, htok⟩
    · subst hrest
      have h0t : 0 ∉ tok := fun h => h0 (List.mem_append_right _ h)
      have hstr := strtok_r_last (some 0) 0 [] cs tok [] rfl hcs hne h44 h0t
      have hct := cstring_at [] cs tok [] h0t
      simp only [List.nil_append, List.length_nil, Nat.zero_add] at hstr hct
      rw [htok, List.append_assoc, hstr]
      simp only [decode, hct]
      cases hsc : scan_store tok c.value0 (cleared hex hexlen) 0 with
      | error r => exact ⟨_, rfl⟩
      | ok vh =>
        obtain ⟨v, h⟩ := vh
        have := remaining_bytes_eq f.addr c.heap hexlen (cs ++ (tok ++ [0])).length []
          (cs ++ tok) v h 0 (List.not_mem_nil 0) (by simp)
        rw [tokens_nil] at this
        simp only [List.nil_append, List.append_assoc, List.length_append] at this
        simp only [List.length_append]
        exact this
    · subst hrest
      have h0t : 0 ∉ tok := fun h =>
        h0 (List.mem_append_right _ (List.mem_append_left _ h))
      have h0r : 0 ∉ r3 := fun h =>
        h0 (List.mem_append_right _ (List.mem_append_right _ (List.mem_cons_of_mem _ h)))
      have hstr := strtok_r_mid (some 0) 0 [] cs tok (r3 ++ [0]) rfl hcs hne h44 h0t
      have hct := cstring_at [] cs tok (r3 ++ [0]) h0t
      simp only [List.nil_append, List.length_nil, Nat.zero_add] at hstr hct
      have hbuf : cs ++ (tok ++ 44 :: r3) ++ [0] = cs ++ (tok ++ 44 :: (r3 ++ [0])) := by
        simp only [List.append_assoc, List.cons_append]
      rw [htok, hbuf, hstr]
      simp only [decode, hct]
      cases hsc : scan_store tok c.value0 (cleared hex hexlen) 0 with
      | error r => exact ⟨_, rfl⟩
      | ok vh =>
        obtain ⟨v, h⟩ := vh
        have := remaining_bytes_eq f.addr c.heap hexlen (cs ++ (tok ++ 0 :: (r3 ++ [0]))).length
          r3 (cs ++ tok ++ [0]) v h 0 h0r (by simp; omega)
        simp only [List.append_assoc, List.length_append, List.cons_append, List.nil_append,
          List.length_cons, List.length_nil] at this
        simp only [List.length_append, List.length_cons, List.length_nil]
        exact this

/-! ## Scanning one token -/

theorem isxdigit_iff (c : Nat) :
    isxdigit c = true ↔ (48 ≤ c ∧ c ≤ 57) ∨ (97 ≤ c ∧ c ≤ 102) ∨ (65 ≤ c ∧ c ≤ 70) := by
  unfold isxdigit hexval
  split_ifs <;> simp <;> omega

theorem isspace_of_isxdigit (c : Nat) (h : isxdigit c = true) : isspace c = false := by
  rw [isxdigit_iff] at h
  unfold isspace
  simp
  omega

/-- On a hexadecimal number that fits `unsigned int`, `%x` converts the number. -/
theorem sscanf_x_hex (t : List Nat) (ht : isHexNumber t = true) (hv : digitsVal t < 2 ^ 32) :
    sscanf_x t = .conv (digitsVal t) := by
  unfold isHexNumber at ht
  simp only [Bool.and_eq_true, Bool.not_eq_true', List.all_eq_true] at ht
  obtain ⟨hne, hall⟩ := ht
  cases t with
  | nil => simp at hne
  | cons x xs =>
    have hx : isxdigit x = true := hall x (List.mem_cons_self _ _)
    have hxs : isspace x = false := isspace_of_isxdigit x hx
    have hx' := (isxdigit_iff x).mp hx
    have h1 : (x :: xs).dropWhile isspace = x :: xs := by
      simp [List.dropWhile_cons, hxs]
    have h2 : scan_sign (x :: xs) = (false, x :: xs) := by
      have h43 : x ≠ 43 := by omega
      have h45 : x ≠ 45 := by omega
      simp [scan_sign, h43, h45]
    have h3 : scan_0x (x :: xs) = x :: xs := by
      unfold scan_0x
      cases xs with
      | nil => simp
      | cons y ys =>
        have hy : isxdigit y = true := hall y (by simp)
        have hy' := (isxdigit_iff y).mp hy
        have hy1 : y ≠ 120 := by omega
        have hy2 : y ≠ 88 := by omega
        simp [hy1, hy2]
    have htw : (x :: xs).takeWhile isxdigit = x :: xs := by
      rw [List.takeWhile_eq_self_iff]
      exact hall
    simp only [sscanf_x, h1, h2, h3, scan_digits, htw]
    have hv2 : digitsVal (x :: xs) < 4294967296 := by
      norm_num at hv
      exact hv
    simp [hv2]

/-- What `scan_store` does, case by case on the scan. -/
theorem scan_store_eq (t : List Nat) (value : Nat) (hex : List Nat) (i : Int)
    (hi : 0 ≤ i ∧ i < hex.length) :
    scan_store t value hex i =
      if sscanf_x t = .range then .error (.undefined .conversion_range)
      else if (sscanf_x t).assign value > 0xff then .error (.fatal (.invalid_hex_byte t))
      else .ok ((sscanf_x t).assign value, hex.set i.toNat ((sscanf_x t).assign value)) := by
  unfold scan_store store
  cases hsc : sscanf_x t with
  | range => simp
  | no_conversion =>
    simp only [if_pos hi]
    by_cases hv : Scan.no_conversion.assign value > 0xff
    · simp [hv]
    · have : Scan.no_conversion.assign value % 256 = Scan.no_conversion.assign value := by
        apply Nat.mod_eq_of_lt; omega
      simp [hv, this]
  | conv v =>
    simp only [if_pos hi]
    by_cases hv : (Scan.conv v).assign value > 0xff
    · simp [hv]
    · have : (Scan.conv v).assign value % 256 = (Scan.conv v).assign value := by
        apply Nat.mod_eq_of_lt; omega
      simp [hv, this]

theorem scansByte_iff (t : List Nat) :
    scansByte t = true ↔ sscanf_x t = .conv (scanned t) ∧ scanned t ≤ 0xff := by
  unfold scansByte scanned
  cases h : sscanf_x t <;> simp [Scan.assign]

/-- A hexadecimal byte is a token from which `%x` converts its value. -/
theorem scansByte_of_isHexByte (t : List Nat) (ht : isHexByte t = true) :
    scansByte t = true ∧ scanned t = digitsVal t := by
  unfold isHexByte at ht
  simp only [Bool.and_eq_true, decide_eq_true_eq] at ht
  have hsc := sscanf_x_hex t ht.1 (by omega)
  have hv : scanned t = digitsVal t := by rw [scanned, hsc]; rfl
  refine ⟨?_, hv⟩
  rw [scansByte_iff, hv]
  exact ⟨hsc, ht.2⟩

/-- On a token from which `%x` converts a byte, `scan_store` stores that byte. -/
theorem scan_store_byte (t : List Nat) (value : Nat) (hex : List Nat) (i : Int)
    (hi : 0 ≤ i ∧ i < hex.length) (ht : scansByte t = true) :
    scan_store t value hex i = .ok (scanned t, hex.set i.toNat (scanned t)) := by
  obtain ⟨hsc, hv⟩ := (scansByte_iff t).mp ht
  have ha : (sscanf_x t).assign value = scanned t := by rw [hsc]; rfl
  rw [scan_store_eq t value hex i hi, ha, hsc]
  simp
  omega

/-- On a token from which `%x` converts something, what `value` held before the
call does not matter. -/
theorem scan_store_converted (t : List Nat) (v v2 : Nat) (hex : List Nat) (i : Int)
    (ht : sscanf_x t ≠ .no_conversion) :
    scan_store t v hex i = scan_store t v2 hex i := by
  unfold scan_store
  cases hsc : sscanf_x t with
  | no_conversion => exact absurd hsc ht
  | range => rfl
  | conv w => rfl

/-- When `%x` converts something from the first token, what the call shows does
not depend on what the uninitialised `value` held. -/
theorem decode_converted (hexlen : Int) (toks : List (List Nat)) (v v2 : Nat) (hex : List Nat)
    (ht : ∀ t ∈ toks.head?, sscanf_x t ≠ .no_conversion) :
    decode hexlen toks v hex = decode hexlen toks v2 hex := by
  cases toks with
  | nil => rfl
  | cons t ts =>
    simp only [decode]
    rw [scan_store_converted t v v2 hex 0 (ht t (by simp))]

/-! ## The loop on the list of tokens -/

theorem set_done (done : List Nat) (m : Nat) (tl : List Nat) (b : Nat) :
    (done ++ (List.replicate (m + 1) 0 ++ tl)).set done.length b
      = (done ++ [b]) ++ (List.replicate m 0 ++ tl) := by
  rw [List.replicate_succ, List.cons_append, set_append_length, List.append_assoc]
  rfl

/-- The loop on tokens from which `%x` converts a byte: the bytes are stored one after
the other behind the bytes `done` already stored; when they fill the buffer and
more tokens follow, the loop returns `hexlen + 1` without releasing the
duplicate. -/
theorem decode_rest_good (hexlen : Int) :
    ∀ (good more : List (List Nat)) (value : Nat) (done : List Nat) (m : Nat) (tl : List Nat)
      (numbytes : Int),
      (∀ t ∈ good, scansByte t = true) → numbytes + 1 = done.length →
      hexlen = done.length + m → good.length ≤ m → (more ≠ [] → good.length = m) →
      decode_rest hexlen (good ++ more) value (done ++ (List.replicate m 0 ++ tl)) numbytes =
        match more with
        | [] => ⟨.ret ((done.length + good.length : Nat) : Int),
            done ++ good.map scanned ++ (List.replicate (m - good.length) 0 ++ tl), [], true⟩
        | _ :: _ => ⟨.ret (hexlen + 1), done ++ good.map scanned ++ tl,
            [.hexbuf_too_small], false⟩ := by
  intro good
  induction good with
  | nil =>
    intro more value done m tl numbytes _ hn hh _ hmore
    cases more with
    | nil =>
      simp only [List.append_nil, decode_rest, List.map_nil, List.length_nil, Nat.add_zero,
        Nat.sub_zero, hn]
    | cons x more =>
      have hm : m = 0 := (hmore (List.cons_ne_nil _ _)).symm
      subst hm
      have hfull : numbytes + 1 + 1 > hexlen := by rw [hh, hn]; simp
      have hr : numbytes + 1 + 1 = hexlen + 1 := by rw [hh, hn]; simp
      rw [List.nil_append, decode_rest, if_pos hfull, hr]
      simp only [List.replicate_zero, List.nil_append, List.map_nil, List.append_nil]
  | cons t good ih =>
    intro more value done m tl numbytes hgood hn hh hle hmore
    have hlen : (t :: good).length = good.length + 1 := rfl
    obtain ⟨m2, rfl⟩ : ∃ m2, m = m2 + 1 := ⟨m - 1, by rw [hlen] at hle; omega⟩
    have hfull : ¬ (numbytes + 1 + 1 > hexlen) := by
      rw [hh, hn]; push_cast; omega
    have hidx : 0 ≤ numbytes + 1 ∧
        numbytes + 1 < ((done ++ (List.replicate (m2 + 1) 0 ++ tl)).length : Int) := by
      rw [hn]
      simp only [List.length_append, List.length_replicate]
      push_cast
      omega
    have hset : (done ++ (List.replicate (m2 + 1) 0 ++ tl)).set (numbytes + 1).toNat (scanned t)
        = (done ++ [scanned t]) ++ (List.replicate m2 0 ++ tl) := by
      rw [hn, Int.toNat_ofNat, set_done]
    have hstep := scan_store_byte t value _ (numbytes + 1) hidx
      (hgood t (List.mem_cons_self _ _))
    rw [hset] at hstep
    rw [List.cons_append, decode_rest, if_neg hfull, hstep]
    simp only []
    rw [ih more (scanned t) (done ++ [scanned t]) m2 tl (numbytes + 1)
      (fun x hx => hgood x (List.mem_cons_of_mem _ hx))
      (by rw [hn]; simp)
      (by rw [hh]; simp; omega)
      (by rw [hlen] at hle; omega)
      (fun h => by have := hmore h; rw [hlen] at this; omega)]
    cases more with
    | nil =>
      simp only [List.length_append, List.length_singleton, List.length_cons, List.map_cons,
        List.append_assoc, List.singleton_append, Nat.add_sub_add_right, List.length_nil,
        Nat.zero_add]
      have : done.length + 1 + good.length = done.length + (good.length + 1) := by omega
      rw [this]
    | cons x more =>
      simp only [List.map_cons, List.append_assoc, List.singleton_append]

/-- The loop on any tokens: the shape of the buffer it leaves, the results it
cannot have, and what it returns when it returns. -/
theorem decode_rest_shape (hexlen : Int) :
    ∀ (ts : List (List Nat)) (value : Nat) (done : List Nat) (m : Nat) (tl : List Nat)
      (numbytes : Int) (v : Seen),
      numbytes + 1 = done.length → hexlen = done.length + m →
      decode_rest hexlen ts value (done ++ (List.replicate m 0 ++ tl)) numbytes = v →
      ∃ (done2 : List Nat) (m2 : Nat),
        v.hex = done2 ++ (List.replicate m2 0 ++ tl) ∧ done2.length + m2 = done.length + m ∧
        v.res ≠ .undefined .out_of_bounds ∧ v.res ≠ .out_of_fuel ∧
        v.res ≠ .undefined .null_string ∧
        ∀ r, v.res = .ret r →
          done2.length = done.length + min ts.length m ∧
          r = (if ts.length ≤ m then ((done.length + ts.length : Nat) : Int) else hexlen + 1) ∧
          v.freed = decide (ts.length ≤ m) ∧
          v.stderr = (if ts.length ≤ m then [] else [.hexbuf_too_small]) := by
  intro ts
  induction ts with
  | nil =>
    intro value done m tl numbytes v hn hh hv
    subst hv
    refine ⟨done, m, rfl, rfl, by simp [decode_rest], by simp [decode_rest],
      by simp [decode_rest], ?_⟩
    intro r hr
    simp only [decode_rest, Result.ret.injEq] at hr
    simp only [decode_rest, List.length_nil, Nat.zero_min, Nat.add_zero, Nat.zero_le, if_true,
      decide_True, true_and]
    exact ⟨by omega, trivial⟩
  | cons t ts ih =>
    intro value done m tl numbytes v hn hh hv
    have hlen : (t :: ts).length = ts.length + 1 := rfl
    rcases Nat.eq_zero_or_pos m with hm | hm
    · subst hm
      have hfull : numbytes + 1 + 1 > hexlen := by rw [hh, hn]; simp
      rw [decode_rest, if_pos hfull] at hv
      subst hv
      refine ⟨done, 0, rfl, rfl, by simp, by simp, by simp, ?_⟩
      intro r hr
      simp only [Result.ret.injEq] at hr
      simp only [hlen, Nat.min_zero, Nat.add_zero, Nat.le_zero_eq, Nat.succ_ne_zero, if_false,
        decide_False, true_and, and_true]
      rw [← hr, hh, hn]
      simp
    · obtain ⟨m2, rfl⟩ : ∃ m2, m = m2 + 1 := ⟨m - 1, by omega⟩
      have hfull : ¬ (numbytes + 1 + 1 > hexlen) := by
        rw [hh, hn]; push_cast; omega
      have hidx : 0 ≤ numbytes + 1 ∧
          numbytes + 1 < ((done ++ (List.replicate (m2 + 1) 0 ++ tl)).length : Int) := by
        rw [hn]
        simp only [List.length_append, List.length_replicate]
        push_cast
        omega
      rw [decode_rest, if_neg hfull, scan_store_eq t value _ (numbytes + 1) hidx] at hv
      by_cases hrange : sscanf_x t = .range
      · rw [if_pos hrange] at hv
        subst hv
        exact ⟨done, m2 + 1, rfl, rfl, by simp, by simp, by simp, by simp⟩
      · rw [if_neg hrange] at hv
        by_cases hbig : (sscanf_x t).assign value > 0xff
        · rw [if_pos hbig] at hv
          subst hv
          exact ⟨done, m2 + 1, rfl, rfl, by simp, by simp, by simp, by simp⟩
        · rw [if_neg hbig] at hv
          simp only [] at hv
          rw [hn, Int.toNat_ofNat, set_done] at hv
          obtain ⟨done2, m3, h1, h2, h3, h4, h5, h6⟩ :=
            ih _ (done ++ [(sscanf_x t).assign value]) m2 tl (↑done.length) v
              (by simp) (by rw [hh]; simp; omega) hv
          refine ⟨done2, m3, h1, ?_, h3, h4, h5, ?_⟩
          · rw [h2]; simp; omega
          · intro r hr
            obtain ⟨g1, g2, g3, g4⟩ := h6 r hr
            refine ⟨?_, ?_, ?_, ?_⟩
            · rw [g1, hlen]; simp; omega
            · rw [g2, hlen]
              simp only [List.length_append, List.length_singleton, Nat.add_le_add_iff_right]
              split_ifs
              · push_cast; omega
              · rfl
            · rw [g3, hlen]; simp
            · rw [g4, hlen]; simp

/-! ## The function on the list of tokens -/

/-- From every token `%x` converts a byte; the tokens are as many as fit or, when more follow, as
many as the buffer holds. -/
theorem decode_good (hexlen : Int) (t : List Nat) (good more : List (List Nat)) (value0 : Nat)
    (m : Nat) (tl : List Nat) (hgood : ∀ x ∈ t :: good, scansByte x = true)
    (hh : hexlen = ((m + 1 : Nat) : Int)) (hle : good.length ≤ m)
    (hmore : more ≠ [] → good.length = m) :
    decode hexlen (t :: good ++ more) value0 (List.replicate (m + 1) 0 ++ tl) =
      match more with
      | [] => ⟨.ret ((good.length + 1 : Nat) : Int),
          (t :: good).map scanned ++ (List.replicate (m - good.length) 0 ++ tl), [], true⟩
      | _ :: _ => ⟨.ret (hexlen + 1), (t :: good).map scanned ++ tl,
          [.hexbuf_too_small], false⟩ := by
  have hidx : (0 : Int) ≤ 0 ∧ (0 : Int) < ((List.replicate (m + 1) 0 ++ tl).length : Int) := by
    refine ⟨le_refl _, ?_⟩
    rw [List.length_append, List.length_replicate]
    omega
  have hstep := scan_store_byte t value0 _ 0 hidx (hgood t (List.mem_cons_self _ _))
  have hset := set_done [] m tl (scanned t)
  simp only [List.nil_append, List.length_nil] at hset
  rw [Int.toNat_zero, hset] at hstep
  rw [List.cons_append, decode, hstep]
  simp only []
  have := decode_rest_good hexlen good more (scanned t) [scanned t] m tl 0
    (fun x hx => hgood x (List.mem_cons_of_mem _ hx)) (by simp)
    (by rw [hh, List.length_singleton]; push_cast; omega) hle hmore
  rw [this]
  cases more with
  | nil =>
    simp only [List.length_singleton, List.map_cons, List.singleton_append]
    have : 1 + good.length = good.length + 1 := by omega
    rw [this]
  | cons x more => rfl

/-- Any tokens: the shape of the buffer `decode` leaves, the results it cannot
have, and what it returns when it returns. -/
theorem decode_shape (hexlen : Int) (toks : List (List Nat)) (value0 : Nat) (m : Nat)
    (tl : List Nat) (v : Seen) (hh : hexlen = ((m + 1 : Nat) : Int))
    (hv : decode hexlen toks value0 (List.replicate (m + 1) 0 ++ tl) = v) :
    ∃ (done2 : List Nat) (m2 : Nat),
      v.hex = done2 ++ (List.replicate m2 0 ++ tl) ∧ done2.length + m2 = m + 1 ∧
      v.res ≠ .undefined .out_of_bounds ∧ v.res ≠ .out_of_fuel ∧
      ∀ r, v.res = .ret r →
        toks ≠ [] ∧ done2.length = min toks.length (m + 1) ∧
        r = (if toks.length ≤ m + 1 then (toks.length : Int) else hexlen + 1) ∧
        v.freed = decide (toks.length ≤ m + 1) ∧
        v.stderr = (if toks.length ≤ m + 1 then [] else [.hexbuf_too_small]) := by
  cases toks with
  | nil =>
    rw [decode] at hv
    subst hv
    exact ⟨[], m + 1, rfl, by simp, by simp, by simp, by simp⟩
  | cons t ts =>
    have hlen : (t :: ts).length = ts.length + 1 := rfl
    have hidx : (0 : Int) ≤ 0 ∧ (0 : Int) < ((List.replicate (m + 1) 0 ++ tl).length : Int) := by
      refine ⟨le_refl _, ?_⟩
      rw [List.length_append, List.length_replicate]
      omega
    rw [decode, scan_store_eq t value0 _ 0 hidx] at hv
    by_cases hrange : sscanf_x t = .range
    · rw [if_pos hrange] at hv
      subst hv
      exact ⟨[], m + 1, rfl, by simp, by simp, by simp, by simp⟩
    · rw [if_neg hrange] at hv
      by_cases hbig : (sscanf_x t).assign value0 > 0xff
      · rw [if_pos hbig] at hv
        subst hv
        exact ⟨[], m + 1, rfl, by simp, by simp, by simp, by simp⟩
      · rw [if_neg hbig] at hv
        simp only [] at hv
        have hset := set_done [] m tl ((sscanf_x t).assign value0)
        simp only [List.nil_append, List.length_nil] at hset
        rw [Int.toNat_zero, hset] at hv
        obtain ⟨done2, m2, h1, h2, h3, h4, _, h6⟩ :=
          decode_rest_shape hexlen ts _ [(sscanf_x t).assign value0] m tl 0 v
            (by simp) (by rw [hh, List.length_singleton]; push_cast; omega) hv
        refine ⟨done2, m2, h1, ?_, h3, h4, ?_⟩
        · rw [h2]; simp; omega
        · intro r hr
          obtain ⟨g1, g2, g3, g4⟩ := h6 r hr
          refine ⟨List.cons_ne_nil _ _, ?_, ?_, ?_, ?_⟩
          · rw [g1, hlen]; simp; omega
          · rw [g2, hlen]
            simp only [List.length_singleton, Nat.add_le_add_iff_right]
            split_ifs
            · push_cast; omega
            · rfl
          · rw [g3, hlen]; simp
          · rw [g4, hlen]; simp

/-! ## The function: the calls that do not reach the tokens -/

theorem read_hexstring_alloc_none (c : Ctx) (hc : c.alloc = none) (l2string hex : List Nat)
    (hexlen : Int) :
    read_hexstring c l2string hex hexlen
      = ⟨.fatal (.strdup_failed (strlen l2string)), hex, c.heap, []⟩ := by
  simp only [read_hexstring, hc, strdup_failed]

theorem read_hexstring_nonpos (c : Ctx) (f : Fresh) (hc : c.alloc = some f)
    (l2string hex : List Nat) (hexlen : Int) (h : hexlen ≤ 0) :
    read_hexstring c l2string hex hexlen
      = ⟨.fatal .hexbuf_not_positive, hex, (f.addr, cstring l2string 0 ++ [0]) :: c.heap, []⟩ := by
  simp only [read_hexstring, hc, strdup_ok, if_pos h]

theorem read_hexstring_short (c : Ctx) (f : Fresh) (hc : c.alloc = some f)
    (l2string hex : List Nat) (hexlen : Int) (hpos : 0 < hexlen)
    (h : ¬ hexlen.toNat ≤ hex.length) :
    read_hexstring c l2string hex hexlen
      = ⟨.undefined .out_of_bounds, hex, (f.addr, cstring l2string 0 ++ [0]) :: c.heap, []⟩ := by
  simp only [read_hexstring, hc, strdup_ok, if_neg (not_le.mpr hpos), memset, if_neg h]

/-- What the outcome of a call shows is what `decode` shows. -/
theorem read_hexstring_seen (c : Ctx) (f : Fresh) (hc : c.alloc = some f)
    (l2string hex : List Nat) (hexlen : Int) (hpos : 0 < hexlen)
    (hlen : hexlen.toNat ≤ hex.length) :
    (read_hexstring c l2string hex hexlen).res
        = (decode hexlen (tokens (cstring l2string 0)) c.value0 (cleared hex hexlen)).res ∧
    (read_hexstring c l2string hex hexlen).hex
        = (decode hexlen (tokens (cstring l2string 0)) c.value0 (cleared hex hexlen)).hex ∧
    (read_hexstring c l2string hex hexlen).stderr
        = (decode hexlen (tokens (cstring l2string 0)) c.value0 (cleared hex hexlen)).stderr := by
  obtain ⟨s2, h⟩ := read_hexstring_eq c f hc l2string hex hexlen hpos hlen
  rw [h]
  exact ⟨rfl, rfl, rfl⟩

theorem cleared_eq (hex : List Nat) (hexlen : Int) (m : Nat) (hm : hexlen = ((m + 1 : Nat) : Int)) :
    cleared hex hexlen = List.replicate (m + 1) 0 ++ hex.drop (m + 1) := by
  unfold cleared
  rw [hm, Int.toNat_ofNat]

theorem pos_cases (hexlen : Int) (hpos : 0 < hexlen) :
    ∃ m : Nat, hexlen = ((m + 1 : Nat) : Int) :=
  ⟨hexlen.toNat - 1, by omega⟩

/-- The bound on the iterations of the loop is never reached: every call of
`read_hexstring` ends by returning, by `errx`, or by leaving defined behaviour. -/
theorem read_hexstring_ends (c : Ctx) (l2string hex : List Nat) (hexlen : Int) :
    (read_hexstring c l2string hex hexlen).res ≠ .out_of_fuel := by
  cases hc : c.alloc with
  | none => rw [read_hexstring_alloc_none c hc]; simp
  | some f =>
    by_cases hpos : 0 < hexlen
    · by_cases hlen : hexlen.toNat ≤ hex.length
      · obtain ⟨m, hm⟩ := pos_cases hexlen hpos
        rw [(read_hexstring_seen c f hc l2string hex hexlen hpos hlen).1, cleared_eq hex hexlen m hm]
        obtain ⟨_, _, _, _, _, h4, _⟩ := decode_shape hexlen _ c.value0 m _ _ hm rfl
        exact h4
      · rw [read_hexstring_short c f hc l2string hex hexlen hpos hlen]; simp
    · rw [read_hexstring_nonpos c f hc l2string hex hexlen (not_lt.mp hpos)]; simp

/-- A call that returns: the allocator had succeeded, the destination has at
least `hexlen` cells, and the returned value and the buffer are as follows. -/
theorem read_hexstring_ret (c : Ctx) (l2string hex : List Nat) (hexlen r : Int)
    (hpos : 0 < hexlen) (hret : (read_hexstring c l2string hex hexlen).res = .ret r) :
    ∃ (m : Nat) (done2 : List Nat) (m2 : Nat),
      hexlen = ((m + 1 : Nat) : Int) ∧ m + 1 ≤ hex.length ∧
      (read_hexstring c l2string hex hexlen).hex
        = done2 ++ (List.replicate m2 0 ++ hex.drop (m + 1)) ∧
      done2.length + m2 = m + 1 ∧ tokens (cstring l2string 0) ≠ [] ∧
      done2.length = min (tokens (cstring l2string 0)).length (m + 1) ∧
      r = (if (tokens (cstring l2string 0)).length ≤ m + 1
        then ((tokens (cstring l2string 0)).length : Int) else hexlen + 1) ∧
      (read_hexstring c l2string hex hexlen).stderr
        = (if (tokens (cstring l2string 0)).length ≤ m + 1 then [] else [.hexbuf_too_small]) := by
  cases hc : c.alloc with
  | none => rw [read_hexstring_alloc_none c hc] at hret; simp at hret
  | some f =>
    by_cases hlen : hexlen.toNat ≤ hex.length
    · obtain ⟨m, hm⟩ := pos_cases hexlen hpos
      obtain ⟨e1, e2, e3⟩ := read_hexstring_seen c f hc l2string hex hexlen hpos hlen
      rw [e1] at hret
      rw [e2, e3]
      rw [cleared_eq hex hexlen m hm] at hret ⊢
      obtain ⟨done2, m2, h1, h2, _, _, h5⟩ := decode_shape hexlen _ c.value0 m _ _ hm rfl
      obtain ⟨g0, g1, g2, _, g4⟩ := h5 r hret
      refine ⟨m, done2, m2, hm, ?_, h1, h2, g0, g1, g2, g4⟩
      rw [hm, Int.toNat_ofNat] at hlen
      exact hlen
    · rw [read_hexstring_short c f hc l2string hex hexlen hpos hlen] at hret; simp at hret

/-! ## A token whose value is too large -/

/-- The loop on tokens of which one, at a position the buffer still has room
for, converts to more than `0xFF`: the loop does not return, and it ends in
`errx` unless an earlier conversion left the range of `unsigned int`. -/
theorem decode_rest_bad (hexlen : Int) (bad : List Nat) (post : List (List Nat)) (big : Nat)
    (hbad : sscanf_x bad = .conv big) (hbig : 0xff < big) :
    ∀ (pre : List (List Nat)) (value : Nat) (done : List Nat) (m : Nat) (tl : List Nat)
      (numbytes : Int),
      numbytes + 1 = done.length → hexlen = done.length + m → pre.length < m →
      (∀ r, (decode_rest hexlen (pre ++ bad :: post) value
          (done ++ (List.replicate m 0 ++ tl)) numbytes).res ≠ .ret r) ∧
      ((∀ t ∈ pre, sscanf_x t ≠ .range) →
        ∃ d, (decode_rest hexlen (pre ++ bad :: post) value
          (done ++ (List.replicate m 0 ++ tl)) numbytes).res = .fatal d) := by
  intro pre
  induction pre with
  | nil =>
    intro value done m tl numbytes hn hh hlt
    obtain ⟨m2, rfl⟩ : ∃ m2, m = m2 + 1 := ⟨m - 1, by simp at hlt; omega⟩
    have hfull : ¬ (numbytes + 1 + 1 > hexlen) := by
      rw [hh, hn]; push_cast; omega
    have hidx : 0 ≤ numbytes + 1 ∧
        numbytes + 1 < ((done ++ (List.replicate (m2 + 1) 0 ++ tl)).length : Int) := by
      rw [hn]
      simp only [List.length_append, List.length_replicate]
      push_cast
      omega
    have hb : (Scan.conv big).assign value > 0xff := hbig
    rw [List.nil_append, decode_rest, if_neg hfull, scan_store_eq bad value _ _ hidx, hbad,
      if_neg (by simp), if_pos hb]
    exact ⟨fun r => by simp, fun _ => ⟨_, rfl⟩⟩
  | cons t pre ih =>
    intro value done m tl numbytes hn hh hlt
    have hlen : (t :: pre).length = pre.length + 1 := rfl
    obtain ⟨m2, rfl⟩ : ∃ m2, m = m2 + 1 := ⟨m - 1, by omega⟩
    have hfull : ¬ (numbytes + 1 + 1 > hexlen) := by
      rw [hh, hn]; push_cast; omega
    have hidx : 0 ≤ numbytes + 1 ∧
        numbytes + 1 < ((done ++ (List.replicate (m2 + 1) 0 ++ tl)).length : Int) := by
      rw [hn]
      simp only [List.length_append, List.length_replicate]
      push_cast
      omega
    rw [List.cons_append, decode_rest, if_neg hfull, scan_store_eq t value _ _ hidx]
    by_cases hrange : sscanf_x t = .range
    · rw [if_pos hrange]
      exact ⟨fun r => by simp, fun h => absurd hrange (h t (List.mem_cons_self _ _))⟩
    · rw [if_neg hrange]
      by_cases hv : (sscanf_x t).assign value > 0xff
      · rw [if_pos hv]
        exact ⟨fun r => by simp, fun _ => ⟨_, rfl⟩⟩
      · rw [if_neg hv]
        simp only []
        rw [hn, Int.toNat_ofNat, set_done]
        obtain ⟨h1, h2⟩ := ih ((sscanf_x t).assign value) (done ++ [(sscanf_x t).assign value])
          m2 tl (↑done.length) (by simp) (by rw [hh]; simp; omega) (by rw [hlen] at hlt; omega)
        exact ⟨h1, fun h => h2 fun x hx => h x (List.mem_cons_of_mem _ hx)⟩

/-- The same from the first token on. -/
theorem decode_bad (hexlen : Int) (pre : List (List Nat)) (bad : List Nat)
    (post : List (List Nat)) (big : Nat) (value0 : Nat) (m : Nat) (tl : List Nat)
    (hbad : sscanf_x bad = .conv big) (hbig : 0xff < big)
    (hh : hexlen = ((m + 1 : Nat) : Int)) (hlt : pre.length < m + 1) :
    (∀ r, (decode hexlen (pre ++ bad :: post) value0 (List.replicate (m + 1) 0 ++ tl)).res
        ≠ .ret r) ∧
    ((∀ t ∈ pre, sscanf_x t ≠ .range) →
      ∃ d, (decode hexlen (pre ++ bad :: post) value0 (List.replicate (m + 1) 0 ++ tl)).res
        = .fatal d) := by
  have hidx : (0 : Int) ≤ 0 ∧ (0 : Int) < ((List.replicate (m + 1) 0 ++ tl).length : Int) := by
    refine ⟨le_refl _, ?_⟩
    rw [List.length_append, List.length_replicate]
    omega
  cases pre with
  | nil =>
    have hb : (Scan.conv big).assign value0 > 0xff := hbig
    rw [List.nil_append, decode, scan_store_eq bad value0 _ _ hidx, hbad, if_neg (by simp),
      if_pos hb]
    exact ⟨fun r => by simp, fun _ => ⟨_, rfl⟩⟩
  | cons t pre =>
    have hlen : (t :: pre).length = pre.length + 1 := rfl
    rw [List.cons_append, decode, scan_store_eq t value0 _ _ hidx]
    by_cases hrange : sscanf_x t = .range
    · rw [if_pos hrange]
      exact ⟨fun r => by simp, fun h => absurd hrange (h t (List.mem_cons_self _ _))⟩
    · rw [if_neg hrange]
      by_cases hv : (sscanf_x t).assign value0 > 0xff
      · rw [if_pos hv]
        exact ⟨fun r => by simp, fun _ => ⟨_, rfl⟩⟩
      · rw [if_neg hv]
        simp only []
        have hset := set_done [] m tl ((sscanf_x t).assign value0)
        simp only [List.nil_append, List.length_nil] at hset
        rw [Int.toNat_zero, hset]
        obtain ⟨h1, h2⟩ := decode_rest_bad hexlen bad post big hbad hbig pre
          ((sscanf_x t).assign value0) [(sscanf_x t).assign value0] m tl 0 (by simp)
          (by rw [hh, List.length_singleton]; push_cast; omega) (by rw [hlen] at hlt; omega)
        exact ⟨h1, fun h => h2 fun x hx => h x (List.mem_cons_of_mem _ hx)⟩

/-! ## Tokens with something behind their digits -/

/-- From a token that begins with hexadecimal digits `%x` converts the number
these digits write, whatever follows them. -/
theorem sscanf_x_leading (h g : List Nat) (hh : isHexNumber h = true) (hv : digitsVal h < 2 ^ 32)
    (hg1 : ∀ c, g.head? = some c → isxdigit c = false)
    (hg2 : g.head? ≠ some 120 ∧ g.head? ≠ some 88) :
    sscanf_x (h ++ g) = .conv (digitsVal h) := by
  unfold isHexNumber at hh
  simp only [Bool.and_eq_true, Bool.not_eq_true', List.all_eq_true] at hh
  obtain ⟨hne, hall⟩ := hh
  cases h with
  | nil => simp at hne
  | cons x xs =>
    have hx : isxdigit x = true := hall x (List.mem_cons_self _ _)
    have hxs : isspace x = false := isspace_of_isxdigit x hx
    have hx' := (isxdigit_iff x).mp hx
    have h1 : (x :: xs ++ g).dropWhile isspace = x :: xs ++ g := by
      simp [List.dropWhile_cons, hxs]
    have h2 : scan_sign (x :: xs ++ g) = (false, x :: xs ++ g) := by
      have h43 : x ≠ 43 := by omega
      have h45 : x ≠ 45 := by omega
      simp [scan_sign, h43, h45]
    have h3 : scan_0x (x :: xs ++ g) = x :: xs ++ g := by
      unfold scan_0x
      cases xs with
      | nil =>
        cases g with
        | nil => simp
        | cons y ys =>
          have hy1 : y ≠ 120 := fun h => hg2.1 (by rw [h]; rfl)
          have hy2 : y ≠ 88 := fun h => hg2.2 (by rw [h]; rfl)
          simp [hy1, hy2]
      | cons y ys =>
        have hy : isxdigit y = true := hall y (by simp)
        have hy' := (isxdigit_iff y).mp hy
        have hy1 : y ≠ 120 := by omega
        have hy2 : y ≠ 88 := by omega
        simp [hy1, hy2]
    have htw : (x :: xs ++ g).takeWhile isxdigit = x :: xs := by
      rw [takeWhile_run (x :: xs) g hall]
      cases g with
      | nil => simp
      | cons y ys => simp [List.takeWhile_cons, hg1 y rfl]
    simp only [sscanf_x, h1, h2, h3, scan_digits, htw]
    have hv2 : digitsVal (x :: xs) < 4294967296 := by
      norm_num at hv
      exact hv
    simp [hv2]

theorem scansByte_of_startsWithHexByte (t : List Nat) (ht : startsWithHexByte t = true) :
    scansByte t = true ∧ scanned t = digitsVal (t.takeWhile isxdigit) := by
  unfold startsWithHexByte at ht
  simp only [Bool.and_eq_true, Bool.not_eq_true', Bool.or_eq_false_iff, beq_eq_false_iff_ne,
    ne_eq] at ht
  obtain ⟨hb, hg⟩ := ht
  have hb2 := hb
  unfold isHexByte at hb2
  simp only [Bool.and_eq_true, decide_eq_true_eq] at hb2
  have hsplit : t = t.takeWhile isxdigit ++ t.dropWhile isxdigit :=
    (List.takeWhile_append_dropWhile _ _).symm
  have hsc : sscanf_x t = .conv (digitsVal (t.takeWhile isxdigit)) := by
    have := sscanf_x_leading (t.takeWhile isxdigit) (t.dropWhile isxdigit) hb2.1 (by omega)
      (by
        intro c hc
        cases hd : t.dropWhile isxdigit with
        | nil => rw [hd] at hc; simp at hc
        | cons y ys =>
          rw [hd] at hc
          simp only [List.head?_cons, Option.some.injEq] at hc
          have := List.head_dropWhile_not isxdigit t (by rw [hd]; simp)
          simp only [hd, List.head_cons] at this
          rw [← hc]
          simpa using this)
      hg
    rw [← hsplit] at this
    exact this
  have hv : scanned t = digitsVal (t.takeWhile isxdigit) := by rw [scanned, hsc]; rfl
  refine ⟨?_, hv⟩
  rw [scansByte_iff, hv]
  exact ⟨hsc, hb2.2⟩

/-! ## Commas that separate nothing -/

theorem tokens_of_commas (cs : List Nat) (hcs : ∀ c ∈ cs, c = 44) : tokens cs = [] := by
  have := tokens_commas_append cs [] hcs
  rw [List.append_nil] at this
  rw [this, tokens_nil]

theorem tokens_strip_leading (d : List Nat) : tokens (strip_leading_commas d) = tokens d := by
  unfold strip_leading_commas
  conv_rhs => rw [← List.takeWhile_append_dropWhile (fun c => c == 44) d]
  rw [tokens_commas_append]
  intro c hc
  have := List.mem_takeWhile_imp hc
  simpa using this

theorem tokens_append_commas (cs : List Nat) (hcs : ∀ c ∈ cs, c = 44) :
    ∀ (n : Nat) (l : List Nat), l.length ≤ n → tokens (l ++ cs) = tokens l := by
  intro n
  induction n with
  | zero =>
    intro l hl
    have : l = [] := List.length_eq_zero.mp (by omega)
    subst this
    rw [List.nil_append, tokens_of_commas cs hcs, tokens_nil]
  | succ n ih =>
    intro l hl
    obtain ⟨cs0, hcs0, hcase⟩ := text_cases l
    rcases hcase with ⟨hl0, ht⟩ | ⟨tok, hne, h44, hcase⟩
    · rw [ht]
      apply tokens_of_commas
      intro c hc
      rcases List.mem_append.mp hc with h | h
      · rw [hl0] at h; exact hcs0 c h
      · exact hcs c h
    · rcases hcase with ⟨hl0, ht⟩ | ⟨r3, hl0, ht⟩
      · rw [ht, hl0, List.append_assoc, tokens_commas_append cs0 _ hcs0]
        cases cs with
        | nil => rw [List.append_nil]; exact tokens_single tok hne h44
        | cons x xs =>
          have hx : x = 44 := hcs x (List.mem_cons_self _ _)
          subst hx
          rw [tokens_tok_comma tok xs hne h44,
            tokens_of_commas xs fun c hc => hcs c (List.mem_cons_of_mem _ hc)]
      · rw [ht, hl0, List.append_assoc, tokens_commas_append cs0 _ hcs0, List.append_assoc,
          List.cons_append, tokens_tok_comma tok _ hne h44]
        rw [ih r3 (by
          rw [hl0] at hl
          simp only [List.length_append, List.length_cons] at hl
          omega)]

theorem tokens_strip_trailing (d : List Nat) : tokens (strip_trailing_commas d) = tokens d := by
  unfold strip_trailing_commas
  have hsplit : d = (d.reverse.dropWhile fun c => c == 44).reverse ++
      (d.reverse.takeWhile fun c => c == 44).reverse := by
    rw [← List.reverse_append, List.takeWhile_append_dropWhile, List.reverse_reverse]
  conv_rhs => rw [hsplit]
  rw [tokens_append_commas _ _ _ _ (le_refl _)]
  intro c hc
  have := List.mem_takeWhile_imp (List.mem_reverse.mp hc)
  simpa using this

theorem tokens_eq_pieces (l : List Nat) :
    tokens l = (if first_piece l = [] then [] else [first_piece l]) ++ later_tokens l := by
  unfold first_piece later_tokens
  have hsplit := (List.takeWhile_append_dropWhile (fun c => c != 44) l).symm
  have h44 : 44 ∉ l.takeWhile (fun c => c != 44) := by
    intro h
    have := List.mem_takeWhile_imp h
    simp at this
  generalize l.takeWhile (fun c => c != 44) = tok at hsplit h44
  cases hr : l.dropWhile (fun c => c != 44) with
  | nil =>
    rw [hr, List.append_nil] at hsplit
    subst hsplit
    by_cases hne : l = []
    · subst hne; simp [tokens_nil]
    · rw [if_neg hne, tokens_single l hne h44]
      simp [tokens_nil]
  | cons y r3 =>
    have hy : y = 44 := by
      have := List.head_dropWhile_not (fun c => c != 44) l (by rw [hr]; simp)
      simp [hr] at this
      exact this
    subst hy
    rw [hr] at hsplit
    rw [hsplit, List.drop_one, List.tail_cons]
    by_cases hne : tok = []
    · subst hne
      rw [if_pos rfl, List.nil_append, List.nil_append, tokens_comma_cons]
    · rw [if_neg hne, tokens_tok_comma tok r3 hne h44]
      rfl

theorem first_piece_comma (l : List Nat) : first_piece (44 :: l) = [] := by
  simp [first_piece, List.takeWhile_cons]

theorem later_tokens_comma (l : List Nat) : later_tokens (44 :: l) = tokens l := by
  simp [later_tokens, List.dropWhile_cons]

theorem first_piece_cons (c : Nat) (l : List Nat) (hc : c ≠ 44) :
    first_piece (c :: l) = c :: first_piece l := by
  simp [first_piece, List.takeWhile_cons, hc]

theorem later_tokens_cons (c : Nat) (l : List Nat) (hc : c ≠ 44) :
    later_tokens (c :: l) = later_tokens l := by
  simp [later_tokens, List.dropWhile_cons, hc]

theorem collapse_commas_pieces :
    ∀ (n : Nat) (l : List Nat), l.length ≤ n →
      first_piece (collapse_commas l) = first_piece l ∧
      later_tokens (collapse_commas l) = later_tokens l := by
  intro n
  induction n with
  | zero =>
    intro l hl
    have : l = [] := List.length_eq_zero.mp (by omega)
    subst this
    exact ⟨rfl, rfl⟩
  | succ n ih =>
    intro l hl
    match l, hl with
    | [], _ => exact ⟨rfl, rfl⟩
    | [c], _ => exact ⟨rfl, rfl⟩
    | c :: d :: r, hl =>
      have hlen : (d :: r).length ≤ n := by
        simp only [List.length_cons] at hl ⊢
        omega
      obtain ⟨ih1, ih2⟩ := ih (d :: r) hlen
      have htok : tokens (collapse_commas (d :: r)) = tokens (d :: r) := by
        rw [tokens_eq_pieces, tokens_eq_pieces (d :: r), ih1, ih2]
      by_cases hc : c = 44
      · subst hc
        by_cases hd : d = 44
        · subst hd
          have : collapse_commas (44 :: 44 :: r) = collapse_commas (44 :: r) := by
            simp [collapse_commas]
          rw [this, ih1, ih2]
          rw [first_piece_comma, first_piece_comma, later_tokens_comma, later_tokens_comma,
            tokens_comma_cons]
          exact ⟨rfl, rfl⟩
        · have : collapse_commas (44 :: d :: r) = 44 :: collapse_commas (d :: r) := by
            simp [collapse_commas, hd]
          rw [this, first_piece_comma, first_piece_comma, later_tokens_comma, later_tokens_comma,
            htok]
          exact ⟨rfl, rfl⟩
      · have : collapse_commas (c :: d :: r) = c :: collapse_commas (d :: r) := by
          simp [collapse_commas, hc]
        rw [this, first_piece_cons _ _ hc, first_piece_cons _ _ hc, later_tokens_cons _ _ hc,
          later_tokens_cons _ _ hc, ih1, ih2]
        exact ⟨rfl, rfl⟩

theorem tokens_collapse_commas (l : List Nat) : tokens (collapse_commas l) = tokens l := by
  obtain ⟨h1, h2⟩ := collapse_commas_pieces l.length l (le_refl _)
  rw [tokens_eq_pieces, tokens_eq_pieces l, h1, h2]

/-- The commas deleted by `normalize` separate nothing: the tokens stay. -/
theorem tokens_normalize (d : List Nat) : tokens (normalize d) = tokens d := by
  unfold normalize
  rw [tokens_collapse_commas, tokens_strip_trailing, tokens_strip_leading]

theorem collapse_commas_subset : ∀ (n : Nat) (l : List Nat), l.length ≤ n →
    ∀ x ∈ collapse_commas l, x ∈ l := by
  intro n
  induction n with
  | zero =>
    intro l hl
    have : l = [] := List.length_eq_zero.mp (by omega)
    subst this
    intro x hx
    exact hx
  | succ n ih =>
    intro l hl
    match l, hl with
    | [], _ => intro x hx; exact hx
    | [c], _ => intro x hx; exact hx
    | c :: d :: r, hl =>
      have hlen : (d :: r).length ≤ n := by
        simp only [List.length_cons] at hl ⊢
        omega
      intro x hx
      by_cases hcd : (c == 44 && d == 44) = true
      · have : collapse_commas (c :: d :: r) = collapse_commas (d :: r) := by
          rw [collapse_commas, if_pos hcd]
        rw [this] at hx
        exact List.mem_cons_of_mem _ (ih (d :: r) hlen x hx)
      · have : collapse_commas (c :: d :: r) = c :: collapse_commas (d :: r) := by
          rw [collapse_commas, if_neg hcd]
        rw [this] at hx
        rcases List.mem_cons.mp hx with h | h
        · rw [h]; exact List.mem_cons_self _ _
        · exact List.mem_cons_of_mem _ (ih (d :: r) hlen x h)

theorem normalize_no_nul (d : List Nat) (hd : 0 ∉ d) : 0 ∉ normalize d := by
  intro h
  unfold normalize at h
  have h1 := collapse_commas_subset _ _ (le_refl _) 0 h
  unfold strip_trailing_commas at h1
  have h2 := (List.dropWhile_sublist _).subset (List.mem_reverse.mp h1)
  have h3 := List.mem_reverse.mp h2
  unfold strip_leading_commas at h3
  exact hd ((List.dropWhile_sublist _).subset h3)

theorem cstring_of_text (d : List Nat) (hd : 0 ∉ d) : cstring d 0 = d := by
  unfold cstring
  rw [List.drop_zero, List.takeWhile_eq_self_iff]
  intro x hx
  have : x ≠ 0 := fun h => hd (h ▸ hx)
  simp [this]

/-! ## The claims -/

/-- C1: when the non-empty comma-separated tokens of the description are all
hexadecimal numbers of value at most `0xFF`, there is at least one, and the
capacity `hexlen` is at least their number `n`, then `read_hexstring` returns
exactly `n` and the first `n` cells of `hex` are the values of the tokens, in
the order of the tokens, from offset 0. -/
theorem read_hexstring_decodes_all (c : Ctx) (f : Fresh) (l2string hex : List Nat) (hexlen : Int)
    (halloc : c.alloc = some f)
    (hne : tokens (cstring l2string 0) ≠ [])
    (hbytes : ∀ t ∈ tokens (cstring l2string 0), isHexByte t = true)
    (hcap : ((tokens (cstring l2string 0)).length : Int) ≤ hexlen)
    (hbuf : hexlen.toNat ≤ hex.length) :
    (read_hexstring c l2string hex hexlen).res
        = .ret ((tokens (cstring l2string 0)).length : Int) ∧
    (read_hexstring c l2string hex hexlen).hex.take (tokens (cstring l2string 0)).length
        = (tokens (cstring l2string 0)).map digitsVal := by
  generalize htoks : tokens (cstring l2string 0) = toks at hne hbytes hcap
  cases toks with
  | nil => exact absurd rfl hne
  | cons t good =>
    have hl : (t :: good).length = good.length + 1 := rfl
    have hpos : 0 < hexlen := by rw [hl] at hcap; push_cast at hcap; omega
    obtain ⟨m, hm⟩ := pos_cases hexlen hpos
    obtain ⟨e1, e2, _⟩ := read_hexstring_seen c f halloc l2string hex hexlen hpos hbuf
    have hd := decode_good hexlen t good [] c.value0 m (hex.drop (m + 1))
      (fun x hx => (scansByte_of_isHexByte x (hbytes x hx)).1) hm
      (by rw [hl, hm] at hcap; push_cast at hcap; omega) (fun h => absurd rfl h)
    have hmap : (t :: good).map scanned = (t :: good).map digitsVal :=
      List.map_congr_left fun x hx => (scansByte_of_isHexByte x (hbytes x hx)).2
    rw [List.append_nil, hmap] at hd
    rw [e1, e2, htoks, cleared_eq hex hexlen m hm, hd]
    simp only [hl, true_and]
    rw [← hl, ← List.length_map (t :: good) digitsVal, List.take_left']
    rfl

/-- C1, the examples of the claim: `"aa,bb,cc"` with capacity 16 returns 3 and
leaves `0xAA, 0xBB, 0xCC` in the first three cells, and `"aa"` returns 1. -/
theorem read_hexstring_decodes_all_witness :
    ((read_hexstring ctx0 (cstr "aa,bb,cc") (List.replicate 16 7) 16).res = .ret 3 ∧
      (read_hexstring ctx0 (cstr "aa,bb,cc") (List.replicate 16 7) 16).hex.take 3
        = [0xAA, 0xBB, 0xCC]) ∧
    ((read_hexstring ctx0 (cstr "aa") (List.replicate 16 7) 16).res = .ret 1 ∧
      (read_hexstring ctx0 (cstr "aa") (List.replicate 16 7) 16).hex.take 1 = [0xAA]) :=
  ⟨read_hexstring_decodes_all ctx0 ⟨1000, fun _ => 0xEE⟩ (cstr "aa,bb,cc")
      (List.replicate 16 7) 16 rfl (by decide) (by decide) (by decide) (by decide),
    read_hexstring_decodes_all ctx0 ⟨1000, fun _ => 0xEE⟩ (cstr "aa") (List.replicate 16 7) 16
      rfl (by decide) (by decide) (by decide) (by decide)⟩

/-- C2: when the description has more than `hexlen` tokens and the first
`hexlen` of them (`good`) are hexadecimal bytes, `read_hexstring` returns
normally with `hexlen + 1`, the first `hexlen` cells of the buffer are the
values of those tokens in order, nothing behind them is touched, and the
warning is printed. -/
theorem read_hexstring_truncates (c : Ctx) (f : Fresh) (l2string hex : List Nat) (hexlen : Int)
    (good more : List (List Nat))
    (halloc : c.alloc = some f) (hpos : 1 ≤ hexlen)
    (htoks : tokens (cstring l2string 0) = good ++ more) (hmore : more ≠ [])
    (hfill : (good.length : Int) = hexlen)
    (hbytes : ∀ t ∈ good, isHexByte t = true)
    (hbuf : hexlen.toNat ≤ hex.length) :
    (read_hexstring c l2string hex hexlen).res = .ret (hexlen + 1) ∧
    (read_hexstring c l2string hex hexlen).hex
        = good.map digitsVal ++ hex.drop hexlen.toNat ∧
    (read_hexstring c l2string hex hexlen).stderr = [.hexbuf_too_small] := by
  obtain ⟨m, hm⟩ := pos_cases hexlen (by omega)
  obtain ⟨e1, e2, e3⟩ := read_hexstring_seen c f halloc l2string hex hexlen (by omega) hbuf
  cases good with
  | nil => rw [hm] at hfill; simp at hfill; omega
  | cons t good =>
    have hl : (t :: good).length = good.length + 1 := rfl
    have hgl : good.length = m := by rw [hl, hm] at hfill; push_cast at hfill; omega
    have hd := decode_good hexlen t good more c.value0 m (hex.drop (m + 1))
      (fun x hx => (scansByte_of_isHexByte x (hbytes x hx)).1) hm (le_of_eq hgl) (fun _ => hgl)
    have hmap : (t :: good).map scanned = (t :: good).map digitsVal :=
      List.map_congr_left fun x hx => (scansByte_of_isHexByte x (hbytes x hx)).2
    rw [hmap] at hd
    rw [e1, e2, e3, htoks, cleared_eq hex hexlen m hm, hd]
    have htn : hexlen.toNat = m + 1 := by rw [hm, Int.toNat_ofNat]
    rw [htn]
    cases more with
    | nil => exact absurd rfl hmore
    | cons x more => exact ⟨rfl, rfl, rfl⟩

/-- C2, the example of the claim: capacity 2 and `"aa,bb,cc"` return 3 with
exactly `0xAA, 0xBB` in the buffer. -/
theorem read_hexstring_truncates_witness :
    (read_hexstring ctx0 (cstr "aa,bb,cc") [7, 7] 2).res = .ret 3 ∧
    (read_hexstring ctx0 (cstr "aa,bb,cc") [7, 7] 2).hex = [0xAA, 0xBB] ∧
    (read_hexstring ctx0 (cstr "aa,bb,cc") [7, 7] 2).stderr = [.hexbuf_too_small] :=
  read_hexstring_truncates ctx0 ⟨1000, fun _ => 0xEE⟩ (cstr "aa,bb,cc") [7, 7] 2
    [cstr "aa", cstr "bb"] [cstr "cc"] rfl (by decide) (by decide) (by decide) (by decide)
    (by decide) (by decide)

/-- C3: the returned value signals truncation.  On every call with
`hexlen >= 1` that returns, the value returned is greater than `hexlen` if and
only if the description has more than `hexlen` non-empty tokens, and it lies
between 1 and `hexlen + 1`. -/
theorem read_hexstring_truncation_signal (c : Ctx) (l2string hex : List Nat) (hexlen r : Int)
    (hpos : 1 ≤ hexlen) (hret : (read_hexstring c l2string hex hexlen).res = .ret r) :
    (hexlen < r ↔ hexlen < ((tokens (cstring l2string 0)).length : Int)) ∧
    1 ≤ r ∧ r ≤ hexlen + 1 := by
  obtain ⟨m, done2, m2, hm, _, _, _, hne, _, hr, _⟩ :=
    read_hexstring_ret c l2string hex hexlen r (by omega) hret
  have hn : 0 < (tokens (cstring l2string 0)).length := List.length_pos.mpr hne
  generalize (tokens (cstring l2string 0)).length = n at hr hn
  by_cases hle : n ≤ m + 1
  · rw [if_pos hle] at hr
    subst hr
    rw [hm]
    push_cast
    omega
  · rw [if_neg hle] at hr
    subst hr
    rw [hm]
    push_cast
    omega

/-- C3 on `"aa,bb,cc"` with capacity 2, a call that is truncated. -/
theorem read_hexstring_truncation_signal_witness :
    (read_hexstring ctx0 (cstr "aa,bb,cc") [7, 7] 2).res = .ret 3 ∧
    (((2 : Int) < 3 ↔ (2 : Int) < ((tokens (cstring (cstr "aa,bb,cc") 0)).length : Int)) ∧
      (1 : Int) ≤ 3 ∧ (3 : Int) ≤ 2 + 1) :=
  ⟨by decide,
    read_hexstring_truncation_signal ctx0 (cstr "aa,bb,cc") [7, 7] 2 3 (by decide) (by decide)⟩

/-- C4, as the claim states it, fails: in `"aa,100"` the token `"100"` converts
to `0x100`, more than `0xFF`, yet with capacity 1 the call returns 2. -/
theorem read_hexstring_value_check_counterexample :
    cstr "100" ∈ tokens (cstring (cstr "aa,100") 0) ∧
    sscanf_x (cstr "100") = .conv 0x100 ∧
    (read_hexstring ctx0 (cstr "aa,100") [7] 1).res = .ret 2 := by
  decide

/-- C4, amended: when one of the first `hexlen` tokens of the description
converts to a value greater than `0xFF`, a call with `hexlen >= 1` does not
return a count; on a destination of at least `hexlen` cells it ends in `errx`,
provided no earlier token converts to a number outside `unsigned int`.  The
tokens behind the first `hexlen` are never scanned. -/
theorem read_hexstring_value_check (c : Ctx) (l2string hex : List Nat) (hexlen : Int)
    (pre : List (List Nat)) (bad : List Nat) (post : List (List Nat)) (big : Nat)
    (hpos : 1 ≤ hexlen)
    (htoks : tokens (cstring l2string 0) = pre ++ bad :: post)
    (hat : (pre.length : Int) < hexlen)
    (hbad : sscanf_x bad = .conv big) (hbig : 0xff < big) :
    (∀ r, (read_hexstring c l2string hex hexlen).res ≠ .ret r) ∧
    (hexlen.toNat ≤ hex.length → (∀ t ∈ pre, sscanf_x t ≠ .range) →
      ∃ d, (read_hexstring c l2string hex hexlen).res = .fatal d) := by
  cases hc : c.alloc with
  | none =>
    rw [read_hexstring_alloc_none c hc]
    exact ⟨fun r => by simp, fun _ _ => ⟨_, rfl⟩⟩
  | some f =>
    by_cases hlen : hexlen.toNat ≤ hex.length
    · obtain ⟨m, hm⟩ := pos_cases hexlen (by omega)
      obtain ⟨e1, _, _⟩ := read_hexstring_seen c f hc l2string hex hexlen (by omega) hlen
      rw [e1, htoks, cleared_eq hex hexlen m hm]
      obtain ⟨h1, h2⟩ := decode_bad hexlen pre bad post big c.value0 m (hex.drop (m + 1))
        hbad hbig hm (by rw [hm] at hat; push_cast at hat; omega)
      exact ⟨h1, fun _ h => h2 h⟩
    · rw [read_hexstring_short c f hc l2string hex hexlen (by omega) hlen]
      exact ⟨fun r => by simp, fun h => absurd h hlen⟩

/-- C4, amended, on `"aa,100"` with capacity 2: the call ends in `errx`. -/
theorem read_hexstring_value_check_witness :
    (∀ r, (read_hexstring ctx0 (cstr "aa,100") [7, 7] 2).res ≠ .ret r) ∧
    ((2 : Int).toNat ≤ [7, 7].length → (∀ t ∈ [cstr "aa"], sscanf_x t ≠ .range) →
      ∃ d, (read_hexstring ctx0 (cstr "aa,100") [7, 7] 2).res = .fatal d) :=
  read_hexstring_value_check ctx0 (cstr "aa,100") [7, 7] 2 [cstr "aa"] (cstr "100") [] 0x100
    (by decide) (by decide) (by decide) (by decide) (by decide)

/-- C5, as the claim states it, fails: `"fg"` is not a hexadecimal number, yet
the call returns 1 and stores `0x0F`, the value of its leading digit. -/
theorem read_hexstring_leading_digits_counterexample :
    isHexNumber (cstr "fg") = false ∧
    tokens (cstring (cstr "fg") 0) = [cstr "fg"] ∧
    (read_hexstring ctx0 (cstr "fg") (List.replicate 16 7) 16).res = .ret 1 ∧
    (read_hexstring ctx0 (cstr "fg") (List.replicate 16 7) 16).hex
      = 0x0F :: List.replicate 15 0 := by
  decide

/-- C5, amended: when the allocation succeeds, every token of the description
begins with a hexadecimal byte (a non-empty run of hexadecimal digits of value
at most `0xFF`, followed by nothing or by a character other than a hexadecimal
digit, `x` or `X`), and `hexlen` is at least the number `n >= 1` of tokens,
`read_hexstring` on a destination of at least `hexlen` cells returns `n`, and
the first `n` cells of `hex` are the values of the leading digits of the
tokens, whatever follows these digits in a token. -/
theorem read_hexstring_leading_digits (c : Ctx) (f : Fresh) (l2string hex : List Nat)
    (hexlen : Int)
    (halloc : c.alloc = some f)
    (hne : tokens (cstring l2string 0) ≠ [])
    (hbytes : ∀ t ∈ tokens (cstring l2string 0), startsWithHexByte t = true)
    (hcap : ((tokens (cstring l2string 0)).length : Int) ≤ hexlen)
    (hbuf : hexlen.toNat ≤ hex.length) :
    (read_hexstring c l2string hex hexlen).res
        = .ret ((tokens (cstring l2string 0)).length : Int) ∧
    (read_hexstring c l2string hex hexlen).hex.take (tokens (cstring l2string 0)).length
        = (tokens (cstring l2string 0)).map fun t => digitsVal (t.takeWhile isxdigit) := by
  generalize htoks : tokens (cstring l2string 0) = toks at hne hbytes hcap
  cases toks with
  | nil => exact absurd rfl hne
  | cons t good =>
    have hl : (t :: good).length = good.length + 1 := rfl
    have hpos : 0 < hexlen := by rw [hl] at hcap; push_cast at hcap; omega
    obtain ⟨m, hm⟩ := pos_cases hexlen hpos
    obtain ⟨e1, e2, _⟩ := read_hexstring_seen c f halloc l2string hex hexlen hpos hbuf
    have hd := decode_good hexlen t good [] c.value0 m (hex.drop (m + 1))
      (fun x hx => (scansByte_of_startsWithHexByte x (hbytes x hx)).1) hm
      (by rw [hl, hm] at hcap; push_cast at hcap; omega) (fun h => absurd rfl h)
    have hmap : (t :: good).map scanned
        = (t :: good).map fun t => digitsVal (t.takeWhile isxdigit) :=
      List.map_congr_left fun x hx => (scansByte_of_startsWithHexByte x (hbytes x hx)).2
    rw [List.append_nil, hmap] at hd
    rw [e1, e2, htoks, cleared_eq hex hexlen m hm, hd]
    simp only [hl, true_and]
    rw [← hl, ← List.length_map (t :: good) fun t => digitsVal (t.takeWhile isxdigit),
      List.take_left']
    rfl

/-- C5, amended, on `"fg,1!"` with capacity 4: the call returns 2 and stores
`0x0F` and `0x01`. -/
theorem read_hexstring_leading_digits_witness :
    (read_hexstring ctx0 (cstr "fg,1!") [7, 7, 7, 7] 4).res = .ret 2 ∧
    (read_hexstring ctx0 (cstr "fg,1!") [7, 7, 7, 7] 4).hex.take 2 = [0x0F, 0x01] :=
  read_hexstring_leading_digits ctx0 ⟨1000, fun _ => 0xEE⟩ (cstr "fg,1!") [7, 7, 7, 7] 4
    rfl (by decide) (by decide) (by decide) (by decide)

/-- C6: with `hexlen <= 0` every call ends in `errx`, and at that point the
destination buffer is as it was and the duplicate of the description, when one
was allocated, still holds the description unchanged: no token has been split
off and no byte has been stored. -/
theorem read_hexstring_capacity_check (c : Ctx) (l2string hex : List Nat) (hexlen : Int)
    (hcap : hexlen ≤ 0) :
    (∃ d, (read_hexstring c l2string hex hexlen).res = .fatal d) ∧
    (read_hexstring c l2string hex hexlen).hex = hex ∧
    (read_hexstring c l2string hex hexlen).stderr = [] ∧
    (c.alloc = none → (read_hexstring c l2string hex hexlen).heap = c.heap) ∧
    (∀ f, c.alloc = some f →
      (read_hexstring c l2string hex hexlen).res = .fatal .hexbuf_not_positive ∧
      (read_hexstring c l2string hex hexlen).heap
        = (f.addr, cstring l2string 0 ++ [0]) :: c.heap) := by
  cases hc : c.alloc with
  | none =>
    rw [read_hexstring_alloc_none c hc]
    exact ⟨⟨_, rfl⟩, rfl, rfl, fun _ => rfl, fun f h => by simp at h⟩
  | some f =>
    rw [read_hexstring_nonpos c f hc l2string hex hexlen hcap]
    refine ⟨⟨_, rfl⟩, rfl, rfl, fun h => by simp at h, fun g h => ?_⟩
    simp only [Option.some.injEq] at h
    subst h
    exact ⟨rfl, rfl⟩

/-- C6 on capacity 0. -/
theorem read_hexstring_capacity_check_witness :
    (∃ d, (read_hexstring ctx0 (cstr "aa,bb") [7, 7] 0).res = .fatal d) ∧
    (read_hexstring ctx0 (cstr "aa,bb") [7, 7] 0).hex = [7, 7] ∧
    (read_hexstring ctx0 (cstr "aa,bb") [7, 7] 0).stderr = [] ∧
    (ctx0.alloc = none → (read_hexstring ctx0 (cstr "aa,bb") [7, 7] 0).heap = ctx0.heap) ∧
    (∀ f, ctx0.alloc = some f →
      (read_hexstring ctx0 (cstr "aa,bb") [7, 7] 0).res = .fatal .hexbuf_not_positive ∧
      (read_hexstring ctx0 (cstr "aa,bb") [7, 7] 0).heap
        = (f.addr, cstring (cstr "aa,bb") 0 ++ [0]) :: ctx0.heap) :=
  read_hexstring_capacity_check ctx0 (cstr "aa,bb") [7, 7] 0 (by decide)

/-- C7: on a destination of exactly `hexlen >= 1` cells no store of
`read_hexstring`, neither the `memset` nor a store of a byte at `numbytes`,
falls outside the destination: the call never ends in an out-of-bounds store,
and the buffer keeps its length. -/
theorem read_hexstring_stores_in_bounds (c : Ctx) (l2string hex : List Nat) (hexlen : Int)
    (hpos : 1 ≤ hexlen) (hbuf : hex.length = hexlen.toNat) :
    (read_hexstring c l2string hex hexlen).res ≠ .undefined .out_of_bounds ∧
    (read_hexstring c l2string hex hexlen).hex.length = hex.length := by
  cases hc : c.alloc with
  | none =>
    rw [read_hexstring_alloc_none c hc]
    exact ⟨by simp, rfl⟩
  | some f =>
    obtain ⟨m, hm⟩ := pos_cases hexlen (by omega)
    obtain ⟨e1, e2, _⟩ := read_hexstring_seen c f hc l2string hex hexlen (by omega)
      (le_of_eq hbuf.symm)
    rw [e1, e2, cleared_eq hex hexlen m hm]
    obtain ⟨done2, m2, h1, h2, h3, _, _⟩ := decode_shape hexlen _ c.value0 m _ _ hm rfl
    refine ⟨h3, ?_⟩
    rw [h1]
    rw [hm, Int.toNat_ofNat] at hbuf
    simp only [List.length_append, List.length_replicate, List.length_drop]
    omega

/-- C7 on `"aa,bb,cc"` with a destination of two cells. -/
theorem read_hexstring_stores_in_bounds_witness :
    (read_hexstring ctx0 (cstr "aa,bb,cc") [7, 7] 2).res ≠ .undefined .out_of_bounds ∧
    (read_hexstring ctx0 (cstr "aa,bb,cc") [7, 7] 2).hex.length = [7, 7].length :=
  read_hexstring_stores_in_bounds ctx0 (cstr "aa,bb,cc") [7, 7] 2 (by decide) (by decide)

/-- C8, as the claim states it, fails: on the description `"zz"`, from which
`%x` converts nothing, with capacity 1 and the prior content `[7]`, the call
returns 1 both times, but leaves `[1]` when the local `value` held 1 on entry
and `[2]` when it held 2.  The buffer is not a function of the description and
the capacity only. -/
theorem read_hexstring_clears_counterexample :
    tokens (cstring (cstr "zz") 0) = [cstr "zz"] ∧
    sscanf_x (cstr "zz") = .no_conversion ∧
    (read_hexstring ⟨some ⟨1000, fun _ => 0xEE⟩, [], 1⟩ (cstr "zz") [7] 1).res = .ret 1 ∧
    (read_hexstring ⟨some ⟨1000, fun _ => 0xEE⟩, [], 1⟩ (cstr "zz") [7] 1).hex = [1] ∧
    (read_hexstring ⟨some ⟨1000, fun _ => 0xEE⟩, [], 2⟩ (cstr "zz") [7] 1).res = .ret 1 ∧
    (read_hexstring ⟨some ⟨1000, fun _ => 0xEE⟩, [], 2⟩ (cstr "zz") [7] 1).hex = [2] := by
  decide

/-- C8, amended: whatever the destination of `hexlen >= 1` cells held before,
after a call that returns `r <= hexlen` the cells from offset `r` on are all
zero; a call on another destination of the same size returns the same value
and leaves the same buffer, so that the buffer does not depend on what it held;
and when `%x` converts a number from the first token, every call with this
description and capacity whose allocation succeeds returns that value and
leaves that buffer, so that the buffer is a function of the description and
the capacity only. -/
theorem read_hexstring_clears (c : Ctx) (l2string hex hex2 : List Nat) (hexlen r : Int)
    (hpos : 1 ≤ hexlen) (hbuf : hex.length = hexlen.toNat) (hbuf2 : hex2.length = hexlen.toNat)
    (hret : (read_hexstring c l2string hex hexlen).res = .ret r) :
    (r ≤ hexlen → (read_hexstring c l2string hex hexlen).hex.drop r.toNat
        = List.replicate (hexlen.toNat - r.toNat) 0) ∧
    (read_hexstring c l2string hex2 hexlen).res = .ret r ∧
    (read_hexstring c l2string hex2 hexlen).hex = (read_hexstring c l2string hex hexlen).hex ∧
    ((∀ t ∈ (tokens (cstring l2string 0)).head?, sscanf_x t ≠ .no_conversion) →
      ∀ c2 : Ctx, c2.alloc ≠ none →
        (read_hexstring c2 l2string hex2 hexlen).res = .ret r ∧
        (read_hexstring c2 l2string hex2 hexlen).hex
          = (read_hexstring c l2string hex hexlen).hex) := by
  have hzero : r ≤ hexlen → (read_hexstring c l2string hex hexlen).hex.drop r.toNat
      = List.replicate (hexlen.toNat - r.toNat) 0 := by
    intro hr
    obtain ⟨m, done2, m2, hm, _, h1, h2, _, h3, h4, _⟩ :=
      read_hexstring_ret c l2string hex hexlen r (by omega) hret
    have htn : hexlen.toNat = m + 1 := by rw [hm, Int.toNat_ofNat]
    have hdrop : hex.drop (m + 1) = [] := List.drop_of_length_le (by omega)
    have hrn : r.toNat = done2.length := by
      by_cases hle : (tokens (cstring l2string 0)).length ≤ m + 1
      · rw [if_pos hle] at h4
        rw [h4, Int.toNat_ofNat, h3]
        omega
      · rw [if_neg hle] at h4
        omega
    rw [h1, hdrop, List.append_nil, hrn, drop_append_length, htn]
    congr 1
    omega
  have hsame : ∀ c2 : Ctx, c2.alloc ≠ none →
      decode hexlen (tokens (cstring l2string 0)) c2.value0 (cleared hex hexlen)
        = decode hexlen (tokens (cstring l2string 0)) c.value0 (cleared hex hexlen) →
      (read_hexstring c2 l2string hex2 hexlen).res = .ret r ∧
      (read_hexstring c2 l2string hex2 hexlen).hex
        = (read_hexstring c l2string hex hexlen).hex := by
    intro c2 hc2 hdec
    cases hc : c.alloc with
    | none => rw [read_hexstring_alloc_none c hc] at hret; simp at hret
    | some f =>
      cases hf2 : c2.alloc with
      | none => exact absurd hf2 hc2
      | some f2 =>
        obtain ⟨e1, e2, _⟩ := read_hexstring_seen c f hc l2string hex hexlen (by omega)
          (le_of_eq hbuf.symm)
        obtain ⟨g1, g2, _⟩ := read_hexstring_seen c2 f2 hf2 l2string hex2 hexlen (by omega)
          (le_of_eq hbuf2.symm)
        have hcl : cleared hex2 hexlen = cleared hex hexlen := by
          unfold cleared
          rw [List.drop_of_length_le (le_of_eq hbuf), List.drop_of_length_le (le_of_eq hbuf2)]
        rw [g1, g2, hcl, hdec, ← e1, ← e2]
        exact ⟨hret, rfl⟩
  have hc : c.alloc ≠ none := by
    intro hc
    rw [read_hexstring_alloc_none c hc] at hret
    simp at hret
  exact ⟨hzero, (hsame c hc rfl).1, (hsame c hc rfl).2,
    fun hconv c2 hc2 => hsame c2 hc2 (decode_converted hexlen _ c2.value0 c.value0 _ hconv)⟩

/-- C8, amended, on `"aa,bb"` with four cells, once filled with 7 and once with
9, and once more where the allocator gives another block and the local `value`
held 1. -/
theorem read_hexstring_clears_witness :
    ((2 : Int) ≤ 4 → (read_hexstring ctx0 (cstr "aa,bb") [7, 7, 7, 7] 4).hex.drop (2 : Int).toNat
        = List.replicate ((4 : Int).toNat - (2 : Int).toNat) 0) ∧
    (read_hexstring ctx0 (cstr "aa,bb") [9, 9, 9, 9] 4).res = .ret 2 ∧
    (read_hexstring ctx0 (cstr "aa,bb") [9, 9, 9, 9] 4).hex
      = (read_hexstring ctx0 (cstr "aa,bb") [7, 7, 7, 7] 4).hex ∧
    (∀ t ∈ (tokens (cstring (cstr "aa,bb") 0)).head?, sscanf_x t ≠ .no_conversion) ∧
    (read_hexstring ⟨some ⟨2000, fun _ => 0x55⟩, [], 1⟩ (cstr "aa,bb") [9, 9, 9, 9] 4).res
      = .ret 2 ∧
    (read_hexstring ⟨some ⟨2000, fun _ => 0x55⟩, [], 1⟩ (cstr "aa,bb") [9, 9, 9, 9] 4).hex
      = (read_hexstring ctx0 (cstr "aa,bb") [7, 7, 7, 7] 4).hex :=
  have h := read_hexstring_clears ctx0 (cstr "aa,bb") [7, 7, 7, 7] [9, 9, 9, 9] 4 2 (by decide)
    (by decide) (by decide) (by decide)
  ⟨h.1, h.2.1, h.2.2.1, by decide,
    h.2.2.2 (by decide) ⟨some ⟨2000, fun _ => 0x55⟩, [], 1⟩ (by simp)⟩

/-- C9, as the claim states it, fails: `"aa,bb,cc"` has three tokens, yet with
capacity 1 the call returns 2. -/
theorem read_hexstring_truncated_count_counterexample :
    (tokens (cstring (cstr "aa,bb,cc") 0)).length = 3 ∧
    (read_hexstring ctx0 (cstr "aa,bb,cc") [7] 1).res = .ret 2 := by
  decide

/-- C9, amended: when the description has more than `hexlen >= 1` tokens and
the call returns, the value returned is `hexlen + 1`, however many tokens there
are. -/
theorem read_hexstring_truncated_count (c : Ctx) (l2string hex : List Nat) (hexlen r : Int)
    (hpos : 1 ≤ hexlen) (hmany : hexlen < ((tokens (cstring l2string 0)).length : Int))
    (hret : (read_hexstring c l2string hex hexlen).res = .ret r) :
    r = hexlen + 1 := by
  obtain ⟨m, _, _, hm, _, _, _, _, _, hr, _⟩ :=
    read_hexstring_ret c l2string hex hexlen r (by omega) hret
  rw [if_neg (by rw [hm] at hmany; push_cast at hmany; omega)] at hr
  exact hr

/-- C9, amended, on `"aa,bb,cc"` with capacity 1. -/
theorem read_hexstring_truncated_count_witness :
    (1 : Int) < ((tokens (cstring (cstr "aa,bb,cc") 0)).length : Int) ∧
    (read_hexstring ctx0 (cstr "aa,bb,cc") [7] 1).res = .ret 2 ∧ (2 : Int) = 1 + 1 :=
  ⟨by decide, by decide,
    read_hexstring_truncated_count ctx0 (cstr "aa,bb,cc") [7] 1 2 (by decide) (by decide)
      (by decide)⟩

/-- C10: the empty tokens are skipped.  For every description `d` and every
capacity `hexlen >= 1`, the call on `d` and the call on `d` without its leading
commas, without its trailing commas and with its runs of commas collapsed end
alike: the same buffer, the same warnings and the same result, be it a returned
value, a fatal error or a null pointer handed to `sscanf` when `d` has no token
at all.  Only when the allocator fails do the two calls differ, in the size
that the diagnostic of `safe_strdup` prints. -/
theorem read_hexstring_skips_empty_tokens (c : Ctx) (d hex : List Nat) (hexlen : Int)
    (hd : 0 ∉ d) (hpos : 1 ≤ hexlen) :
    (read_hexstring c d hex hexlen).hex = (read_hexstring c (normalize d) hex hexlen).hex ∧
    (read_hexstring c d hex hexlen).stderr = (read_hexstring c (normalize d) hex hexlen).stderr ∧
    (c.alloc ≠ none →
      (read_hexstring c d hex hexlen).res = (read_hexstring c (normalize d) hex hexlen).res) ∧
    (c.alloc = none →
      (read_hexstring c d hex hexlen).res = .fatal (.strdup_failed (strlen d)) ∧
      (read_hexstring c (normalize d) hex hexlen).res
        = .fatal (.strdup_failed (strlen (normalize d)))) := by
  cases hc : c.alloc with
  | none =>
    rw [read_hexstring_alloc_none c hc, read_hexstring_alloc_none c hc]
    exact ⟨rfl, rfl, fun h => absurd rfl h, fun _ => ⟨rfl, rfl⟩⟩
  | some f =>
    by_cases hlen : hexlen.toNat ≤ hex.length
    · obtain ⟨e1, e2, e3⟩ := read_hexstring_seen c f hc d hex hexlen (by omega) hlen
      obtain ⟨g1, g2, g3⟩ := read_hexstring_seen c f hc (normalize d) hex hexlen (by omega) hlen
      rw [e1, e2, e3, g1, g2, g3, cstring_of_text d hd,
        cstring_of_text (normalize d) (normalize_no_nul d hd), tokens_normalize]
      exact ⟨rfl, rfl, fun _ => rfl, fun h => by simp at h⟩
    · rw [read_hexstring_short c f hc d hex hexlen (by omega) hlen,
        read_hexstring_short c f hc (normalize d) hex hexlen (by omega) hlen]
      exact ⟨rfl, rfl, fun _ => rfl, fun h => by simp at h⟩

/-- C10 on `",,aa,,bb,"`, which becomes `"aa,bb"`; and `"aa,"` decodes one byte
as `"aa"` does. -/
theorem read_hexstring_skips_empty_tokens_witness :
    normalize (cstr ",,aa,,bb,") = cstr "aa,bb" ∧
    (read_hexstring ctx0 (cstr "aa,") [7, 7] 2).res = .ret 1 ∧
    (read_hexstring ctx0 (cstr "aa") [7, 7] 2).res = .ret 1 ∧
    ((read_hexstring ctx0 (cstr ",,aa,,bb,") [7, 7] 2).hex
        = (read_hexstring ctx0 (normalize (cstr ",,aa,,bb,")) [7, 7] 2).hex ∧
      (read_hexstring ctx0 (cstr ",,aa,,bb,") [7, 7] 2).stderr
        = (read_hexstring ctx0 (normalize (cstr ",,aa,,bb,")) [7, 7] 2).stderr ∧
      (ctx0.alloc ≠ none →
        (read_hexstring ctx0 (cstr ",,aa,,bb,") [7, 7] 2).res
          = (read_hexstring ctx0 (normalize (cstr ",,aa,,bb,")) [7, 7] 2).res) ∧
      (ctx0.alloc = none →
        (read_hexstring ctx0 (cstr ",,aa,,bb,") [7, 7] 2).res
          = .fatal (.strdup_failed (strlen (cstr ",,aa,,bb,"))) ∧
        (read_hexstring ctx0 (normalize (cstr ",,aa,,bb,")) [7, 7] 2).res
          = .fatal (.strdup_failed (strlen (normalize (cstr ",,aa,,bb,")))))) :=
  ⟨by decide, by decide, by decide,
    read_hexstring_skips_empty_tokens ctx0 (cstr ",,aa,,bb,") [7, 7] 2 (by decide) (by decide)⟩

/-! ## The allocation wrappers -/

/-- C13: when the allocator succeeds, `_our_safe_malloc(len)` returns a block of
exactly `len` cells that are all zero, whatever the allocator had left in the
block; when the allocator fails, the call ends in `errx` and returns no block. -/
theorem safe_malloc_zeroed (f : Fresh) (len : Nat) :
    _our_safe_malloc (some f) len = .block f.addr (List.replicate len 0) ∧
    _our_safe_malloc none len = .fatal (.malloc_failed len) := by
  refine ⟨?_, rfl⟩
  simp only [_our_safe_malloc, malloc, Option.map_some', memset, List.length_map,
    List.length_range, le_refl, if_true]
  rw [List.drop_of_length_le (by simp)]
  simp

/-- C12, on a block of 16 cells that `realloc` grows in place to 32 cells, with
pointers of 8 bytes: the function zeroes the cells 8 to 30, so that the old
cells 8 to 15 are lost and the last new cell keeps what the allocator left in
it; the old content followed by 16 zero cells is not what it returns. -/
theorem safe_realloc_grow_in_place :
    _our_safe_realloc 8 (some ⟨500, fun _ => 0xEE⟩) 500
        [1, 2, 3, 4, 5, 6, 7, 8, 9, 10, 11, 12, 13, 14, 15, 16] 32
      = .block 500 ([1, 2, 3, 4, 5, 6, 7, 8] ++ List.replicate 23 0 ++ [0xEE]) ∧
    _our_safe_realloc 8 (some ⟨500, fun _ => 0xEE⟩) 500
        [1, 2, 3, 4, 5, 6, 7, 8, 9, 10, 11, 12, 13, 14, 15, 16] 32
      ≠ .block 500 ([1, 2, 3, 4, 5, 6, 7, 8, 9, 10, 11, 12, 13, 14, 15, 16]
          ++ List.replicate 16 0) := by
  decide

/-- C19: for a header length field `ip_hl` of at most 15, `get_layer4` returns
the address `4 * ip_hl` bytes behind the start of the header; this offset is at
most 60 and a multiple of 4. -/
theorem get_layer4_offset (ip_hdr ip_hl : Nat) (h : ip_hl ≤ 15) :
    get_layer4 ip_hdr ip_hl = ip_hdr + 4 * ip_hl ∧
    get_layer4 ip_hdr ip_hl - ip_hdr ≤ 60 ∧
    (get_layer4 ip_hdr ip_hl - ip_hdr) % 4 = 0 := by
  unfold get_layer4
  refine ⟨rfl, ?_, ?_⟩ <;> omega

/-- C19 on a header without options at address 1000: `ip_hl` is 5 and the
layer 4 header begins 20 bytes further. -/
theorem get_layer4_offset_witness :
    get_layer4 1000 5 = 1000 + 4 * 5 ∧ get_layer4 1000 5 - 1000 ≤ 60 ∧
    (get_layer4 1000 5 - 1000) % 4 = 0 :=
  get_layer4_offset 1000 5 (by decide)

/-! ## The heap around a call of `read_hexstring` -/

theorem free_fresh (heap : Heap) (a : Nat) (s : List Nat) (h : ∀ b ∈ heap, b.1 ≠ a) :
    free ((a, s) :: heap) a = heap := by
  unfold free
  rw [List.filter_cons]
  simp only [bne_self_eq_false, Bool.false_eq_true, if_false]
  rw [List.filter_eq_self]
  intro b hb
  simpa using h b hb

/-- Of the heap a call of `read_hexstring` changes the duplicate only: when the
call ends, the duplicate is either still live in front of the blocks that were
live before, or released. -/
theorem read_hexstring_heap (c : Ctx) (f : Fresh) (hc : c.alloc = some f)
    (l2string hex : List Nat) (hexlen : Int) :
    ∃ s2 : List Nat,
      (read_hexstring c l2string hex hexlen).heap = (f.addr, s2) :: c.heap ∨
      (read_hexstring c l2string hex hexlen).heap = free ((f.addr, s2) :: c.heap) f.addr := by
  by_cases hpos : 0 < hexlen
  · by_cases hlen : hexlen.toNat ≤ hex.length
    · obtain ⟨s2, h⟩ := read_hexstring_eq c f hc l2string hex hexlen hpos hlen
      refine ⟨s2, ?_⟩
      rw [h]
      unfold Seen.outcome
      by_cases hf : (decode hexlen (tokens (cstring l2string 0)) c.value0
          (cleared hex hexlen)).freed = true
      · right; simp only [hf, if_true]
      · left; simp only [hf, if_false]
        rfl
    · rw [read_hexstring_short c f hc l2string hex hexlen hpos hlen]
      exact ⟨_, Or.inl rfl⟩
  · rw [read_hexstring_nonpos c f hc l2string hex hexlen (not_lt.mp hpos)]
    exact ⟨_, Or.inl rfl⟩

theorem block_cons_ne (heap : Heap) (a src : Nat) (s : List Nat) (h : a ≠ src) :
    Heap.block ((a, s) :: heap) src = Heap.block heap src := by
  unfold Heap.block
  rw [List.find?_cons]
  have : ((a, s).1 == src) = false := by simpa using h
  rw [this]

theorem block_free_ne (heap : Heap) (a src : Nat) (h : a ≠ src) :
    Heap.block (free heap a) src = Heap.block heap src := by
  unfold Heap.block free
  induction heap with
  | nil => rfl
  | cons b heap ih =>
    rw [List.filter_cons]
    by_cases hb : b.1 = a
    · have h1 : (b.1 != a) = false := by simp [hb]
      have h2 : (b.1 == src) = false := by rw [hb]; simpa using h
      rw [h1, List.find?_cons, h2]
      simpa using ih
    · have h1 : (b.1 != a) = true := by simp [hb]
      rw [h1]
      simp only [if_true, List.find?_cons]
      cases hsrc : (b.1 == src)
      · simpa using ih
      · rfl

theorem block_store_ne (heap : Heap) (a src i b : Nat) (h : a ≠ src) :
    Heap.block (Heap.store heap a i b) src = Heap.block heap src := by
  unfold Heap.block Heap.store
  induction heap with
  | nil => rfl
  | cons blk heap ih =>
    rw [List.map_cons, List.find?_cons, List.find?_cons]
    by_cases hb : blk.1 = a
    · have h1 : (blk.1 == a) = true := by simp [hb]
      have h2 : (blk.1 == src) = false := by rw [hb]; simpa using h
      simp only [h1, if_true, h2]
      exact ih
    · have h1 : (blk.1 == a) = false := by simp [hb]
      simp only [h1, Bool.false_eq_true, if_false]
      cases hsrc : (blk.1 == src)
      · exact ih
      · rfl

/-- C14: for a text `s` held in the live block at address `src`, when the
allocator hands out a new block, `_our_safe_strdup` returns that block with
`strlen(s) + 1` cells, which are the cells of `s` up to and with its
terminator.  The block of `s` is as it was, it stays so under any store into
the copy, and it is as it was after a call of `read_hexstring` on `s`, whose
tokenization writes into the copy. -/
theorem safe_strdup_copies (heap : Heap) (src : Nat) (s : List Nat) (f : Fresh)
    (hs : heap.block src = some s) (hnew : f.addr ≠ src) :
    _our_safe_strdup (some f) s = .ok (f.addr, cstring s 0 ++ [0]) ∧
    (cstring s 0 ++ [0]).length = strlen s + 1 ∧
    (∀ i, i ≤ strlen s → (cstring s 0 ++ [0]).getD i 1 = s.getD i 0) ∧
    Heap.block ((f.addr, cstring s 0 ++ [0]) :: heap) src = some s ∧
    (∀ i b, Heap.block (Heap.store ((f.addr, cstring s 0 ++ [0]) :: heap) f.addr i b) src
      = some s) ∧
    (∀ (c : Ctx) (hex : List Nat) (hexlen : Int), c.alloc = some f → c.heap = heap →
      Heap.block (read_hexstring c s hex hexlen).heap src = some s) := by
  refine ⟨strdup_ok f s, ?_, ?_, ?_, ?_, ?_⟩
  · rw [List.length_append, cstring_length]
    rfl
  · intro i hi
    rw [← copy_cells]
    simp only [List.getD_eq_getElem?_getD, List.getElem?_map, List.getElem?_range
      (show i < strlen s + 1 by omega), Option.map_some', Option.getD_some]
  · rw [block_cons_ne heap f.addr src _ hnew, hs]
  · intro i b
    rw [block_store_ne _ f.addr src i b hnew, block_cons_ne heap f.addr src _ hnew, hs]
  · intro c hex hexlen hc hh
    obtain ⟨s2, h | h⟩ := read_hexstring_heap c f hc s hex hexlen
    · rw [h, block_cons_ne c.heap f.addr src _ hnew, hh, hs]
    · rw [h, block_free_ne _ f.addr src hnew, block_cons_ne c.heap f.addr src _ hnew, hh, hs]

/-- C14 on the text `"aa,bb"` held at address 200 and copied to address 1000. -/
theorem safe_strdup_copies_witness :
    _our_safe_strdup (some ⟨1000, fun _ => 0xEE⟩) (cstr "aa,bb")
      = .ok (1000, cstr "aa,bb" ++ [0]) ∧
    (read_hexstring ⟨some ⟨1000, fun _ => 0xEE⟩, [(200, cstr "aa,bb")], 0⟩ (cstr "aa,bb")
      [7] 1).heap = [(1000, cstr "aa" ++ [0] ++ cstr "bb" ++ [0]), (200, cstr "aa,bb")] ∧
    Heap.block (read_hexstring ⟨some ⟨1000, fun _ => 0xEE⟩, [(200, cstr "aa,bb")], 0⟩
      (cstr "aa,bb") [7] 1).heap 200 = some (cstr "aa,bb") :=
  ⟨rfl, by decide,
    (safe_strdup_copies [(200, cstr "aa,bb")] 200 (cstr "aa,bb") ⟨1000, fun _ => 0xEE⟩
      (by decide) (by decide)).2.2.2.2.2 ⟨some ⟨1000, fun _ => 0xEE⟩, [(200, cstr "aa,bb")], 0⟩
      [7] 1 rfl rfl⟩

/-- C15: what `read_hexstring` leaves of its duplicate when it returns.  With
the duplicate at an address that was not live before, a call that returns
without truncation leaves the live blocks as they were; a call that returns on
truncation leaves the duplicate live: the `return` in the loop comes before
`free(string)`. -/
theorem read_hexstring_release (c : Ctx) (f : Fresh) (l2string hex : List Nat) (hexlen r : Int)
    (halloc : c.alloc = some f) (hfresh : ∀ b ∈ c.heap, b.1 ≠ f.addr) (hpos : 1 ≤ hexlen)
    (hret : (read_hexstring c l2string hex hexlen).res = .ret r) :
    (((tokens (cstring l2string 0)).length : Int) ≤ hexlen →
      (read_hexstring c l2string hex hexlen).heap = c.heap) ∧
    (hexlen < ((tokens (cstring l2string 0)).length : Int) →
      ∃ s2, (read_hexstring c l2string hex hexlen).heap = (f.addr, s2) :: c.heap) := by
  obtain ⟨m, _, _, hm, hlen, _, _, _, _, _, _⟩ :=
    read_hexstring_ret c l2string hex hexlen r (by omega) hret
  have hlen2 : hexlen.toNat ≤ hex.length := by rw [hm, Int.toNat_ofNat]; exact hlen
  obtain ⟨s2, h⟩ := read_hexstring_eq c f halloc l2string hex hexlen (by omega) hlen2
  rw [h] at hret ⊢
  rw [cleared_eq hex hexlen m hm] at hret ⊢
  obtain ⟨_, _, _, _, _, _, h5⟩ := decode_shape hexlen _ c.value0 m _ _ hm rfl
  obtain ⟨_, _, _, hfreed, _⟩ := h5 r hret
  unfold Seen.outcome
  simp only [hfreed]
  constructor
  · intro hn
    have : (tokens (cstring l2string 0)).length ≤ m + 1 := by
      rw [hm] at hn; push_cast at hn; omega
    simp only [this, decide_True, if_true]
    exact free_fresh c.heap f.addr s2 hfresh
  · intro hn
    have : ¬ (tokens (cstring l2string 0)).length ≤ m + 1 := by
      rw [hm] at hn; push_cast at hn; omega
    simp only [this, decide_False, Bool.false_eq_true, if_false]
    exact ⟨s2, rfl⟩

/-- C15 on `"aa,bb,cc"` with capacity 2: the call returns 3 and the duplicate,
at address 1000, is still live, where no block was live before the call. -/
theorem read_hexstring_release_witness :
    (read_hexstring ctx0 (cstr "aa,bb,cc") [7, 7] 2).res = .ret 3 ∧
    ctx0.heap = [] ∧
    (read_hexstring ctx0 (cstr "aa,bb,cc") [7, 7] 2).heap
      = [(1000, cstr "aa" ++ [0] ++ cstr "bb" ++ [0] ++ cstr "cc" ++ [0])] ∧
    ∃ s2, (read_hexstring ctx0 (cstr "aa,bb,cc") [7, 7] 2).heap = (1000, s2) :: ctx0.heap :=
  ⟨by decide, rfl, by decide,
    (read_hexstring_release ctx0 ⟨1000, fun _ => 0xEE⟩ (cstr "aa,bb,cc") [7, 7] 2 3 rfl
      (by decide) (by decide) (by decide)).2 (by decide)⟩

/-! ## The first token -/

theorem tokens_eq_nil_iff (text : List Nat) : tokens text = [] ↔ ∀ x ∈ text, x = 44 := by
  constructor
  · intro h
    obtain ⟨cs, hcs, hcase⟩ := text_cases text
    rcases hcase with ⟨hrest, _⟩ | ⟨tok, _, _, ⟨_, ht⟩ | ⟨r3, _, ht⟩⟩
    · rw [hrest]; exact hcs
    · rw [h] at ht; exact absurd ht (by simp)
    · rw [h] at ht; exact absurd ht (by simp)
  · exact tokens_of_commas text

/-- The first call of `strtok_r` on the duplicate of a text gives the null
pointer exactly when the text has no token. -/
theorem first_strtok_r (text : List Nat) (h0 : 0 ∉ text) :
    (strtok_r (some 0) (text ++ [0]) 0).1 = none ↔ tokens text = [] := by
  obtain ⟨cs, hcs, hcase⟩ := text_cases text
  rcases hcase with ⟨hrest, htok⟩ | ⟨tok, hne, h44, hcase⟩
  · subst hrest
    have hstr := strtok_r_none (some 0) 0 [] text [] rfl hcs
    rw [List.nil_append] at hstr
    rw [hstr, htok]
    simp
  · rcases hcase with ⟨hrest, htok⟩ | ⟨r3, hrest, htok⟩
    · subst hrest
      have h0t : 0 ∉ tok := fun h => h0 (List.mem_append_right _ h)
      have hstr := strtok_r_last (some 0) 0 [] cs tok [] rfl hcs hne h44 h0t
      rw [List.nil_append] at hstr
      rw [htok, List.append_assoc, hstr]
      simp
    · subst hrest
      have h0t : 0 ∉ tok := fun h =>
        h0 (List.mem_append_right _ (List.mem_append_left _ h))
      have hstr := strtok_r_mid (some 0) 0 [] cs tok (r3 ++ [0]) rfl hcs hne h44 h0t
      rw [List.nil_append] at hstr
      have hbuf : cs ++ (tok ++ 44 :: r3) ++ [0] = cs ++ (tok ++ 44 :: (r3 ++ [0])) := by
        simp only [List.append_assoc, List.cons_append]
      rw [htok, hbuf, hstr]
      simp

theorem decode_ne_null (hexlen : Int) (toks : List (List Nat)) (value0 : Nat) (m : Nat)
    (tl : List Nat) (hh : hexlen = ((m + 1 : Nat) : Int)) (hne : toks ≠ []) :
    (decode hexlen toks value0 (List.replicate (m + 1) 0 ++ tl)).res
      ≠ .undefined .null_string := by
  cases toks with
  | nil => exact absurd rfl hne
  | cons t ts =>
    have hidx : (0 : Int) ≤ 0 ∧ (0 : Int) < ((List.replicate (m + 1) 0 ++ tl).length : Int) := by
      refine ⟨le_refl _, ?_⟩
      rw [List.length_append, List.length_replicate]
      omega
    rw [decode, scan_store_eq t value0 _ 0 hidx]
    by_cases hrange : sscanf_x t = .range
    · rw [if_pos hrange]; simp
    · rw [if_neg hrange]
      by_cases hbig : (sscanf_x t).assign value0 > 0xff
      · rw [if_pos hbig]; simp
      · rw [if_neg hbig]
        simp only []
        have hset := set_done [] m tl ((sscanf_x t).assign value0)
        simp only [List.nil_append, List.length_nil] at hset
        rw [Int.toNat_zero, hset]
        obtain ⟨_, _, _, _, _, _, h5, _⟩ :=
          decode_rest_shape hexlen ts ((sscanf_x t).assign value0)
            [(sscanf_x t).assign value0] m tl 0 _
            (by simp) (by rw [hh, List.length_singleton]; push_cast; omega) rfl
        exact h5

/-- C16: in a call with `hexlen >= 1` on a description that has a character
other than the comma, the first `strtok_r` gives a token, not the null pointer,
and the call does not end by handing a null pointer to `sscanf`.  On the empty
description and on a description of commas only, the first `strtok_r` gives the
null pointer, and the call, once the duplicate is allocated and the buffer
cleared, hands it to `sscanf`: its behaviour is undefined. -/
theorem read_hexstring_first_token (c : Ctx) (l2string hex : List Nat) (hexlen : Int)
    (hpos : 1 ≤ hexlen) :
    ((∃ x ∈ cstring l2string 0, x ≠ 44) →
      (∀ a string, _our_safe_strdup c.alloc l2string = .ok (a, string) →
        (strtok_r (some 0) string 0).1 ≠ none) ∧
      (read_hexstring c l2string hex hexlen).res ≠ .undefined .null_string) ∧
    ((∀ x ∈ cstring l2string 0, x = 44) →
      (∀ a string, _our_safe_strdup c.alloc l2string = .ok (a, string) →
        (strtok_r (some 0) string 0).1 = none) ∧
      (∀ f, c.alloc = some f → hexlen.toNat ≤ hex.length →
        (read_hexstring c l2string hex hexlen).res = .undefined .null_string)) := by
  have h0 : 0 ∉ cstring l2string 0 := cstring_no_nul _ _
  have hdup : ∀ a string, _our_safe_strdup c.alloc l2string = .ok (a, string) →
      string = cstring l2string 0 ++ [0] := by
    intro a string h
    cases hc : c.alloc with
    | none => rw [hc, strdup_failed] at h; exact absurd h (by simp)
    | some f =>
      rw [hc, strdup_ok] at h
      simp only [Except.ok.injEq, Prod.mk.injEq] at h
      exact h.2.symm
  constructor
  · intro hx
    have hne : tokens (cstring l2string 0) ≠ [] := by
      intro h
      obtain ⟨x, hxm, hx44⟩ := hx
      exact hx44 ((tokens_eq_nil_iff _).mp h x hxm)
    constructor
    · intro a string h
      rw [hdup a string h]
      intro hnone
      exact hne ((first_strtok_r _ h0).mp hnone)
    · cases hc : c.alloc with
      | none => rw [read_hexstring_alloc_none c hc]; simp
      | some f =>
        by_cases hlen : hexlen.toNat ≤ hex.length
        · obtain ⟨m, hm⟩ := pos_cases hexlen (by omega)
          rw [(read_hexstring_seen c f hc l2string hex hexlen (by omega) hlen).1,
            cleared_eq hex hexlen m hm]
          exact decode_ne_null hexlen _ c.value0 m _ hm hne
        · rw [read_hexstring_short c f hc l2string hex hexlen (by omega) hlen]; simp
  · intro hx
    have hnil : tokens (cstring l2string 0) = [] := (tokens_eq_nil_iff _).mpr hx
    constructor
    · intro a string h
      rw [hdup a string h]
      exact (first_strtok_r _ h0).mpr hnil
    · intro f hc hlen
      rw [(read_hexstring_seen c f hc l2string hex hexlen (by omega) hlen).1, hnil]
      rfl

/-- C16 on `",aa"`, where the first token is `"aa"`, and on `",,"`, where there
is none. -/
theorem read_hexstring_first_token_witness :
    (read_hexstring ctx0 (cstr ",aa") [7, 7] 2).res ≠ .undefined .null_string ∧
    (read_hexstring ctx0 (cstr ",,") [7, 7] 2).res = .undefined .null_string :=
  ⟨((read_hexstring_first_token ctx0 (cstr ",aa") [7, 7] 2 (by decide)).1 (by decide)).2,
    ((read_hexstring_first_token ctx0 (cstr ",,") [7, 7] 2 (by decide)).2 (by decide)).2
      ⟨1000, fun _ => 0xEE⟩ rfl (by decide)⟩

/-! ## A token from which nothing is converted -/

/-- The loop stores behind what is stored: the bytes in front stay. -/
theorem decode_rest_extends (hexlen : Int) :
    ∀ (ts : List (List Nat)) (value : Nat) (done : List Nat) (m : Nat) (tl : List Nat)
      (numbytes : Int) (v : Seen),
      numbytes + 1 = done.length → hexlen = done.length + m →
      decode_rest hexlen ts value (done ++ (List.replicate m 0 ++ tl)) numbytes = v →
      ∃ (ext : List Nat) (m2 : Nat), v.hex = (done ++ ext) ++ (List.replicate m2 0 ++ tl) := by
  intro ts
  induction ts with
  | nil =>
    intro value done m tl numbytes v _ _ hv
    subst hv
    exact ⟨[], m, by simp [decode_rest]⟩
  | cons t ts ih =>
    intro value done m tl numbytes v hn hh hv
    rcases Nat.eq_zero_or_pos m with hm | hm
    · subst hm
      have hfull : numbytes + 1 + 1 > hexlen := by rw [hh, hn]; simp
      rw [decode_rest, if_pos hfull] at hv
      subst hv
      exact ⟨[], 0, by simp⟩
    · obtain ⟨m2, rfl⟩ : ∃ m2, m = m2 + 1 := ⟨m - 1, by omega⟩
      have hfull : ¬ (numbytes + 1 + 1 > hexlen) := by
        rw [hh, hn]; push_cast; omega
      have hidx : 0 ≤ numbytes + 1 ∧
          numbytes + 1 < ((done ++ (List.replicate (m2 + 1) 0 ++ tl)).length : Int) := by
        rw [hn]
        simp only [List.length_append, List.length_replicate]
        push_cast
        omega
      rw [decode_rest, if_neg hfull, scan_store_eq t value _ (numbytes + 1) hidx] at hv
      by_cases hrange : sscanf_x t = .range
      · rw [if_pos hrange] at hv
        subst hv
        exact ⟨[], m2 + 1, by simp⟩
      · rw [if_neg hrange] at hv
        by_cases hbig : (sscanf_x t).assign value > 0xff
        · rw [if_pos hbig] at hv
          subst hv
          exact ⟨[], m2 + 1, by simp⟩
        · rw [if_neg hbig] at hv
          simp only [] at hv
          rw [hn, Int.toNat_ofNat, set_done] at hv
          obtain ⟨ext, m3, h1⟩ :=
            ih _ (done ++ [(sscanf_x t).assign value]) m2 tl (↑done.length) v
              (by simp) (by rw [hh]; simp; omega) hv
          exact ⟨(sscanf_x t).assign value :: ext, m3, by rw [h1]; simp⟩

theorem getElem?_twice (front back : List Nat) (b : Nat) :
    (front ++ b :: b :: back)[front.length]? = some b ∧
    (front ++ b :: b :: back)[front.length + 1]? = some b := by
  induction front with
  | nil => simp
  | cons x xs ih => simpa using ih

/-- The loop on tokens of which one, at a position the buffer has room for,
converts nothing: when the loop returns, the cell of that token and the cell in
front of it hold the same byte. -/
theorem decode_rest_stale (hexlen : Int) (t : List Nat) (post : List (List Nat))
    (ht : sscanf_x t = .no_conversion) :
    ∀ (pre : List (List Nat)) (value : Nat) (d0 : List Nat) (m : Nat) (tl : List Nat)
      (numbytes : Int) (v : Seen) (r : Int),
      numbytes + 1 = (d0 ++ [value]).length → hexlen = (d0 ++ [value]).length + m →
      pre.length < m →
      decode_rest hexlen (pre ++ t :: post) value
        ((d0 ++ [value]) ++ (List.replicate m 0 ++ tl)) numbytes = v →
      v.res = .ret r →
      ∃ (front back : List Nat) (b : Nat),
        v.hex = front ++ b :: b :: back ∧ front.length = d0.length + pre.length := by
  intro pre
  induction pre with
  | nil =>
    intro value d0 m tl numbytes v r hn hh hlt hv hret
    obtain ⟨m2, rfl⟩ : ∃ m2, m = m2 + 1 := ⟨m - 1, by simp at hlt; omega⟩
    have hfull : ¬ (numbytes + 1 + 1 > hexlen) := by
      rw [hh, hn]; push_cast; omega
    have hidx : 0 ≤ numbytes + 1 ∧
        numbytes + 1 < (((d0 ++ [value]) ++ (List.replicate (m2 + 1) 0 ++ tl)).length : Int) := by
      rw [hn]
      simp only [List.length_append, List.length_replicate]
      push_cast
      omega
    have ha : (Scan.no_conversion).assign value = value := rfl
    rw [List.nil_append, decode_rest, if_neg hfull, scan_store_eq t value _ _ hidx, ht,
      if_neg (by simp), ha] at hv
    by_cases hbig : value > 0xff
    · rw [if_pos hbig] at hv
      subst hv
      simp at hret
    · rw [if_neg hbig] at hv
      simp only [] at hv
      rw [hn, Int.toNat_ofNat, set_done] at hv
      obtain ⟨ext, m3, h1⟩ := decode_rest_extends hexlen post value (d0 ++ [value] ++ [value])
        m2 tl (↑(d0 ++ [value]).length) v
        (by simp only [List.length_append, List.length_singleton]; push_cast; omega)
        (by rw [hh]; simp; omega) hv
      refine ⟨d0, ext ++ (List.replicate m3 0 ++ tl), value, ?_, by simp⟩
      rw [h1]
      simp
  | cons t1 pre ih =>
    intro value d0 m tl numbytes v r hn hh hlt hv hret
    have hlen : (t1 :: pre).length = pre.length + 1 := rfl
    obtain ⟨m2, rfl⟩ : ∃ m2, m = m2 + 1 := ⟨m - 1, by omega⟩
    have hfull : ¬ (numbytes + 1 + 1 > hexlen) := by
      rw [hh, hn]; push_cast; omega
    have hidx : 0 ≤ numbytes + 1 ∧
        numbytes + 1 < (((d0 ++ [value]) ++ (List.replicate (m2 + 1) 0 ++ tl)).length : Int) := by
      rw [hn]
      simp only [List.length_append, List.length_replicate]
      push_cast
      omega
    rw [List.cons_append, decode_rest, if_neg hfull, scan_store_eq t1 value _ _ hidx] at hv
    by_cases hrange : sscanf_x t1 = .range
    · rw [if_pos hrange] at hv
      subst hv
      simp at hret
    · rw [if_neg hrange] at hv
      by_cases hbig : (sscanf_x t1).assign value > 0xff
      · rw [if_pos hbig] at hv
        subst hv
        simp at hret
      · rw [if_neg hbig] at hv
        simp only [] at hv
        rw [hn, Int.toNat_ofNat, set_done] at hv
        obtain ⟨front, back, b, h1, h2⟩ := ih ((sscanf_x t1).assign value) (d0 ++ [value]) m2 tl
          (↑(d0 ++ [value]).length) v r
          (by simp only [List.length_append, List.length_singleton]; push_cast; omega)
          (by rw [hh]; simp; omega)
          (by rw [hlen] at hlt; omega) hv hret
        refine ⟨front, back, b, h1, ?_⟩
        rw [h2, hlen]
        simp
        omega

/-- C17: the value of the token before is used again.  On a call that returns,
when the token at position `k` with `1 <= k < hexlen` is one from which `%x`
converts nothing, the cell at offset `k` holds the same byte as the cell at
offset `k - 1`: `value` still holds what the token before left in it. -/
theorem read_hexstring_stale_value (c : Ctx) (l2string hex : List Nat) (hexlen r : Int)
    (pre : List (List Nat)) (t : List Nat) (post : List (List Nat))
    (htoks : tokens (cstring l2string 0) = pre ++ t :: post)
    (hfirst : pre ≠ []) (hat : (pre.length : Int) < hexlen)
    (hscan : sscanf_x t = .no_conversion)
    (hret : (read_hexstring c l2string hex hexlen).res = .ret r) :
    ∃ b, (read_hexstring c l2string hex hexlen).hex[pre.length - 1]? = some b ∧
      (read_hexstring c l2string hex hexlen).hex[pre.length]? = some b := by
  have hpos : 0 < hexlen := by
    have : 0 < pre.length := List.length_pos.mpr hfirst
    omega
  obtain ⟨m, _, _, hm, hlen, _, _, _, _, _, _⟩ :=
    read_hexstring_ret c l2string hex hexlen r hpos hret
  have hlen2 : hexlen.toNat ≤ hex.length := by rw [hm, Int.toNat_ofNat]; exact hlen
  cases hc : c.alloc with
  | none => rw [read_hexstring_alloc_none c hc] at hret; simp at hret
  | some f =>
    obtain ⟨e1, e2, _⟩ := read_hexstring_seen c f hc l2string hex hexlen hpos hlen2
    rw [e1] at hret
    rw [e2]
    rw [htoks, cleared_eq hex hexlen m hm] at hret ⊢
    cases pre with
    | nil => exact absurd rfl hfirst
    | cons t0 pre =>
      have hl : (t0 :: pre).length = pre.length + 1 := rfl
      have hidx : (0 : Int) ≤ 0 ∧
          (0 : Int) < ((List.replicate (m + 1) 0 ++ hex.drop (m + 1)).length : Int) := by
        refine ⟨le_refl _, ?_⟩
        rw [List.length_append, List.length_replicate]
        omega
      rw [List.cons_append, decode, scan_store_eq t0 c.value0 _ 0 hidx] at hret ⊢
      by_cases hrange : sscanf_x t0 = .range
      · rw [if_pos hrange] at hret; simp at hret
      · rw [if_neg hrange] at hret ⊢
        by_cases hbig : (sscanf_x t0).assign c.value0 > 0xff
        · rw [if_pos hbig] at hret; simp at hret
        · rw [if_neg hbig] at hret ⊢
          simp only [] at hret ⊢
          have hset := set_done [] m (hex.drop (m + 1)) ((sscanf_x t0).assign c.value0)
          simp only [List.nil_append, List.length_nil] at hset
          rw [Int.toNat_zero, hset] at hret ⊢
          obtain ⟨front, back, b, h1, h2⟩ := decode_rest_stale hexlen t post hscan pre
            ((sscanf_x t0).assign c.value0) [] m (hex.drop (m + 1)) 0 _ r (by simp)
            (by rw [hm]; simp; omega) (by rw [hl, hm] at hat; push_cast at hat; omega) rfl hret
          rw [List.nil_append] at h1
          rw [h1, hl]
          simp only [List.length_nil, Nat.zero_add] at h2
          rw [Nat.add_sub_cancel, ← h2]
          exact ⟨b, getElem?_twice front back b⟩

/-- C17, the example of the claim: `"aa,zz"` with capacity 16 returns 2 and
leaves `0xAA` in both of the first two cells. -/
theorem read_hexstring_stale_value_witness :
    (read_hexstring ctx0 (cstr "aa,zz") (List.replicate 16 7) 16).res = .ret 2 ∧
    (read_hexstring ctx0 (cstr "aa,zz") (List.replicate 16 7) 16).hex.take 2 = [0xAA, 0xAA] ∧
    ∃ b, (read_hexstring ctx0 (cstr "aa,zz") (List.replicate 16 7) 16).hex[1 - 1]? = some b ∧
      (read_hexstring ctx0 (cstr "aa,zz") (List.replicate 16 7) 16).hex[1]? = some b :=
  ⟨by decide, by decide,
    read_hexstring_stale_value ctx0 (cstr "aa,zz") (List.replicate 16 7) 16 2 [cstr "aa"]
      (cstr "zz") [] (by decide) (by decide) (by decide) (by decide) (by decide)⟩

/-! ## `argv_create`: what it changes in the string -/

theorem blanksCleared_refl (s : List Nat) : BlanksCleared s s :=
  ⟨rfl, fun _ h => absurd rfl h⟩

theorem blanksCleared_trans (s s2 s3 : List Nat) (h1 : BlanksCleared s s2)
    (h2 : BlanksCleared s2 s3) : BlanksCleared s s3 := by
  refine ⟨h2.1.trans h1.1, ?_⟩
  intro j hj
  by_cases h : s2.getD j 0 = s.getD j 0
  · rw [← h]
    exact h2.2 j (by rw [h]; exact hj)
  · obtain ⟨hsp, hz⟩ := h1.2 j h
    refine ⟨hsp, ?_⟩
    by_contra h3
    have := (h2.2 j (by rw [hz]; exact h3)).1
    rw [hz] at this
    exact absurd this (by decide)

theorem getD_set (s : List Nat) (p j b : Nat) :
    (s.set p b).getD j 0 = if p = j ∧ p < s.length then b else s.getD j 0 := by
  simp only [List.getD_eq_getElem?_getD, List.getElem?_set]
  by_cases hpj : p = j
  · subst hpj
    by_cases hlt : p < s.length
    · simp [hlt]
    · have hn : s[p]? = none := List.getElem?_eq_none (by omega)
      simp [hlt, hn]
  · simp [hpj]

theorem blanksCleared_set (s : List Nat) (p : Nat) (h : AtGap s p) :
    BlanksCleared s (s.set p 0) := by
  refine ⟨List.length_set _ _ _, ?_⟩
  intro j hj
  rw [getD_set] at hj ⊢
  by_cases hc : p = j ∧ p < s.length
  · rw [if_pos hc] at hj ⊢
    obtain ⟨rfl, _⟩ := hc
    rcases h with h | h
    · exact absurd h.symm hj
    · exact ⟨h, rfl⟩
  · rw [if_neg hc] at hj
    exact absurd rfl hj

theorem skip_blanks_cleared : ∀ (fuel : Nat) (s : List Nat) (p : Nat) (s2 : List Nat) (p2 : Nat),
    skip_blanks fuel s p = some (s2, p2) → BlanksCleared s s2 := by
  intro fuel
  induction fuel with
  | zero => intro s p s2 p2 h; simp [skip_blanks] at h
  | succ fuel ih =>
    intro s p s2 p2 h
    rw [skip_blanks] at h
    by_cases hc : (s.getD p 0 != 0 && isspace (s.getD p 0)) = true
    · rw [if_pos hc] at h
      simp only [Bool.and_eq_true, bne_iff_ne, ne_eq] at hc
      exact blanksCleared_trans _ _ _ (blanksCleared_set s p (Or.inr hc.2)) (ih _ _ _ _ h)
    · rw [if_neg hc] at h
      simp only [Option.some.injEq, Prod.mk.injEq] at h
      rw [← h.1]
      exact blanksCleared_refl s

theorem skip_word_gap : ∀ (fuel : Nat) (s : List Nat) (p p2 : Nat),
    skip_word fuel s p = some p2 → AtGap s p2 := by
  intro fuel
  induction fuel with
  | zero => intro s p p2 h; simp [skip_word] at h
  | succ fuel ih =>
    intro s p p2 h
    rw [skip_word] at h
    by_cases hc : (s.getD p 0 != 0 && !isspace (s.getD p 0)) = true
    · rw [if_pos hc] at h
      exact ih _ _ _ h
    · rw [if_neg hc] at h
      simp only [Option.some.injEq] at h
      subst h
      simp only [Bool.and_eq_true, bne_iff_ne, ne_eq, Bool.not_eq_true', not_and,
        Bool.not_eq_false] at hc
      unfold AtGap
      by_cases hz : s.getD p 0 = 0
      · exact Or.inl hz
      · exact Or.inr (hc hz)

/-- The loop of `argv_create` clears white space only, and when it is left
after an iteration, `p` is at a NUL or at white space. -/
theorem argv_loop_cleared (argc : Int) :
    ∀ (fuel : Nat) (i : Int) (s : List Nat) (p : Nat) (argv : List (Option Nat)),
      (∀ o, argv_loop argc fuel i s p argv = .error o → BlanksCleared s o.p) ∧
      (∀ i2 s2 q argv2, argv_loop argc fuel i s p argv = .ok (i2, s2, q, argv2) →
        BlanksCleared s s2 ∧ (i < argc - 1 ∨ AtGap s p → AtGap s2 q)) := by
  intro fuel
  induction fuel with
  | zero =>
    intro i s p argv
    rw [argv_loop]
    by_cases hi : i < argc - 1
    · rw [if_pos hi]
      constructor
      · intro o h
        simp only [Except.error.injEq] at h
        rw [← h]
        exact blanksCleared_refl s
      · intro i2 s2 q argv2 h
        exact absurd h (by simp)
    · rw [if_neg hi]
      constructor
      · intro o h
        exact absurd h (by simp)
      · intro i2 s2 q argv2 h
        simp only [Except.ok.injEq, Prod.mk.injEq] at h
        obtain ⟨_, h2, h3, _⟩ := h
        subst h2 h3
        exact ⟨blanksCleared_refl s, fun hq => hq.resolve_left hi⟩
  | succ fuel ih =>
    intro i s p argv
    rw [argv_loop]
    by_cases hi : i < argc - 1
    · rw [if_pos hi]
      cases hb : skip_blanks (s.length + 1) s p with
      | none =>
        simp only []
        constructor
        · intro o h
          simp only [Except.error.injEq] at h
          rw [← h]
          exact blanksCleared_refl s
        · intro i2 s2 q argv2 h
          exact absurd h (by simp)
      | some sp =>
        obtain ⟨s1, p1⟩ := sp
        have hcl := skip_blanks_cleared _ _ _ _ _ hb
        simp only []
        by_cases hz : s1.getD p1 0 = 0
        · rw [if_pos hz]
          constructor
          · intro o h
            exact absurd h (by simp)
          · intro i2 s2 q argv2 h
            simp only [Except.ok.injEq, Prod.mk.injEq] at h
            obtain ⟨_, h2, h3, _⟩ := h
            subst h2 h3
            exact ⟨hcl, fun _ => Or.inl hz⟩
        · rw [if_neg hz]
          cases hst : store_ptr argv i (some p1) with
          | none =>
            simp only []
            constructor
            · intro o h
              simp only [Except.error.injEq] at h
              rw [← h]
              exact hcl
            · intro i2 s2 q argv2 h
              exact absurd h (by simp)
          | some argv1 =>
            simp only []
            cases hw : skip_word (s1.length + 1) s1 p1 with
            | none =>
              simp only []
              constructor
              · intro o h
                simp only [Except.error.injEq] at h
                rw [← h]
                exact hcl
              · intro i2 s2 q argv2 h
                exact absurd h (by simp)
            | some p2 =>
              simp only []
              have hgap := skip_word_gap _ _ _ _ hw
              obtain ⟨ih1, ih2⟩ := ih (i + 1) s1 p2 argv1
              constructor
              · intro o h
                exact blanksCleared_trans _ _ _ hcl (ih1 o h)
              · intro i2 s2 q argv2 h
                obtain ⟨g1, g2⟩ := ih2 i2 s2 q argv2 h
                exact ⟨blanksCleared_trans _ _ _ hcl g1, fun _ => g2 (Or.inr hgap)⟩
    · rw [if_neg hi]
      constructor
      · intro o h
        exact absurd h (by simp)
      · intro i2 s2 q argv2 h
        simp only [Except.ok.injEq, Prod.mk.injEq] at h
        obtain ⟨_, h2, h3, _⟩ := h
        subst h2 h3
        exact ⟨blanksCleared_refl s, fun hq => hq.resolve_left hi⟩

/-- C18: `argv_create` destroys separators only.  For `argc >= 2` the string
keeps its length, every cell that has changed held white space and now holds
NUL, and so every cell that held no white space is as it was.  For `argc = 1`
the loop is not entered and the first cell becomes NUL, whatever it held. -/
theorem argv_create_clears_blanks (p : List Nat) (argc : Int) (argv : List (Option Nat)) :
    (2 ≤ argc →
      (argv_create p argc argv).p.length = p.length ∧
      (∀ j, (argv_create p argc argv).p.getD j 0 ≠ p.getD j 0 →
        isspace (p.getD j 0) = true ∧ (argv_create p argc argv).p.getD j 0 = 0) ∧
      (∀ j, isspace (p.getD j 0) = false → (argv_create p argc argv).p.getD j 0 = p.getD j 0)) ∧
    (argc = 1 → (argv_create p argc argv).p = p.set 0 0) := by
  constructor
  · intro hargc
    have hcl : BlanksCleared p (argv_create p argc argv).p := by
      unfold argv_create
      obtain ⟨h1, h2⟩ := argv_loop_cleared argc (argc - 1).toNat 0 p 0 argv
      cases hl : argv_loop argc (argc - 1).toNat 0 p 0 argv with
      | error o => exact h1 o hl
      | ok st =>
        obtain ⟨i, s, q, argv2⟩ := st
        obtain ⟨g1, g2⟩ := h2 i s q argv2 hl
        have hgap : AtGap s q := g2 (Or.inl (by omega))
        have hfin := blanksCleared_trans _ _ _ g1 (blanksCleared_set s q hgap)
        simp only []
        cases store_ptr argv2 i none <;> exact hfin
    refine ⟨hcl.1, hcl.2, ?_⟩
    intro j hj
    by_contra hne
    have := (hcl.2 j hne).1
    rw [hj] at this
    exact absurd this (by decide)
  · intro hargc
    subst hargc
    unfold argv_create
    have : argv_loop 1 ((1 : Int) - 1).toNat 0 p 0 argv = .ok (0, p, 0, argv) := by
      rw [show ((1 : Int) - 1).toNat = 0 from rfl, argv_loop]
      simp
    rw [this]
    simp only []
    cases store_ptr argv 0 none <;> rfl

/-- C18 on `" ab  cd e"`: with `argc = 3` the blanks in front of and behind
`ab` and the blank behind `cd` become NUL; with `argc = 1` the first cell does. -/
theorem argv_create_clears_blanks_witness :
    (argv_create (cstr " ab  cd e") 3 [none, none, none]).p
      = [0] ++ cstr "ab" ++ [0, 0] ++ cstr "cd" ++ [0] ++ cstr "e" ∧
    (argv_create (cstr "ab cd") 1 [none]).p = [0] ++ cstr "b cd" ∧
    ((argv_create (cstr " ab  cd e") 3 [none, none, none]).p.length = (cstr " ab  cd e").length ∧
      (∀ j, (argv_create (cstr " ab  cd e") 3 [none, none, none]).p.getD j 0
          ≠ (cstr " ab  cd e").getD j 0 →
        isspace ((cstr " ab  cd e").getD j 0) = true ∧
        (argv_create (cstr " ab  cd e") 3 [none, none, none]).p.getD j 0 = 0) ∧
      (∀ j, isspace ((cstr " ab  cd e").getD j 0) = false →
        (argv_create (cstr " ab  cd e") 3 [none, none, none]).p.getD j 0
          = (cstr " ab  cd e").getD j 0)) :=
  ⟨by decide, by decide,
    (argv_create_clears_blanks (cstr " ab  cd e") 3 [none, none, none]).1 (by decide)⟩

/-! ## Words: how a text decomposes -/

theorem words_nil : words [] = [] := by
  simp [words]

theorem words_blank_cons (c : Nat) (l : List Nat) (hc : isspace c = true) :
    words (c :: l) = words l := by
  simp [words, hc]

theorem words_blanks_append (bs l : List Nat) (hbs : ∀ c ∈ bs, isspace c = true) :
    words (bs ++ l) = words l := by
  induction bs with
  | nil => rfl
  | cons c bs ih =>
    rw [List.cons_append, words_blank_cons _ _ (hbs c (List.mem_cons_self _ _))]
    exact ih fun x hx => hbs x (List.mem_cons_of_mem _ hx)

theorem words_single (wd : List Nat) (hne : wd ≠ []) (hw : ∀ c ∈ wd, isspace c = false) :
    words wd = [wd] := by
  have h : wd.splitOnP isspace = [wd] :=
    List.splitOnP_eq_single _ _ fun x hx => by simp [hw x hx]
  have hemp : (!wd.isEmpty) = true := by cases wd <;> simp_all
  rw [words, h, List.filter_cons, if_pos hemp, List.filter_nil]

theorem words_word_blank (wd : List Nat) (c : Nat) (l : List Nat) (hne : wd ≠ [])
    (hw : ∀ x ∈ wd, isspace x = false) (hc : isspace c = true) :
    words (wd ++ c :: l) = wd :: words l := by
  have h : (wd ++ c :: l).splitOnP isspace = wd :: l.splitOnP isspace :=
    List.splitOnP_first _ _ (fun x hx => by simp [hw x hx]) c hc l
  have hemp : (!wd.isEmpty) = true := by cases wd <;> simp_all
  rw [words, h, List.filter_cons, if_pos hemp, words]

/-- A word followed by nothing or by white space is the first word. -/
theorem words_word_append (wd rest : List Nat) (hne : wd ≠ [])
    (hw : ∀ x ∈ wd, isspace x = false) (hrest : ∀ x, rest.head? = some x → isspace x = true) :
    words (wd ++ rest) = wd :: words rest := by
  cases rest with
  | nil => rw [List.append_nil, words_single wd hne hw, words_nil]
  | cons c l =>
    have hc : isspace c = true := hrest c rfl
    rw [words_word_blank wd c l hne hw hc, words_blank_cons c l hc]

/-- A text is a run of white space followed by nothing or by a character that
is not white space. -/
theorem blank_split (rest : List Nat) :
    ∃ bs rest1, rest = bs ++ rest1 ∧ (∀ c ∈ bs, isspace c = true) ∧
      (∀ x, rest1.head? = some x → isspace x = false) := by
  refine ⟨rest.takeWhile isspace, rest.dropWhile isspace,
    (List.takeWhile_append_dropWhile _ _).symm, fun c hc => List.mem_takeWhile_imp hc, ?_⟩
  intro x hx
  cases hd : rest.dropWhile isspace with
  | nil => rw [hd] at hx; simp at hx
  | cons y ys =>
    rw [hd] at hx
    simp only [List.head?_cons, Option.some.injEq] at hx
    have := List.head_dropWhile_not isspace rest (by rw [hd]; simp)
    simp only [hd, List.head_cons] at this
    rw [← hx]
    simpa using this

/-- A text is a run of characters that are not white space followed by
nothing or by white space. -/
theorem word_split (rest : List Nat) :
    ∃ wd rest2, rest = wd ++ rest2 ∧ (∀ c ∈ wd, isspace c = false) ∧
      (∀ x, rest2.head? = some x → isspace x = true) := by
  refine ⟨rest.takeWhile (fun c => !isspace c), rest.dropWhile (fun c => !isspace c),
    (List.takeWhile_append_dropWhile _ _).symm, ?_, ?_⟩
  · intro c hc
    have := List.mem_takeWhile_imp hc
    simpa using this
  · intro x hx
    cases hd : rest.dropWhile (fun c => !isspace c) with
    | nil => rw [hd] at hx; simp at hx
    | cons y ys =>
      rw [hd] at hx
      simp only [List.head?_cons, Option.some.injEq] at hx
      have := List.head_dropWhile_not (fun c => !isspace c) rest (by rw [hd]; simp)
      simp only [hd, List.head_cons] at this
      rw [← hx]
      simpa using this

/-! ## The inner loops of `argv_create` on a decomposed string -/

theorem getD_append_head (pre rest : List Nat) :
    (pre ++ rest).getD pre.length 0 = rest.headD 0 := by
  induction pre with
  | nil => cases rest <;> rfl
  | cons c cs ih => simpa using ih

theorem skip_blanks_run : ∀ (bs : List Nat) (fuel : Nat) (pre rest : List Nat),
    (∀ c ∈ bs, c ≠ 0 ∧ isspace c = true) →
    ¬ (rest.headD 0 ≠ 0 ∧ isspace (rest.headD 0) = true) → bs.length < fuel →
    skip_blanks fuel (pre ++ (bs ++ rest)) pre.length
      = some ((pre ++ List.replicate bs.length 0) ++ rest, pre.length + bs.length) := by
  intro bs
  induction bs with
  | nil =>
    intro fuel pre rest _ hstop hfuel
    obtain ⟨fuel, rfl⟩ : ∃ f, fuel = f + 1 := ⟨fuel - 1, by simp at hfuel; omega⟩
    have hc : ¬ ((rest.headD 0 != 0 && isspace (rest.headD 0)) = true) := by
      simpa using hstop
    rw [List.nil_append, skip_blanks, getD_append_head, if_neg hc]
    simp
  | cons c bs ih =>
    intro fuel pre rest hbs hstop hfuel
    obtain ⟨fuel, rfl⟩ : ∃ f, fuel = f + 1 := ⟨fuel - 1, by simp at hfuel; omega⟩
    obtain ⟨hc0, hcs⟩ := hbs c (List.mem_cons_self _ _)
    have hc : (c != 0 && isspace c) = true := by simp [hc0, hcs]
    have hg : (pre ++ (c :: bs ++ rest)).getD pre.length 0 = c := by
      rw [getD_append_head]; rfl
    have hset : (pre ++ (c :: bs ++ rest)).set pre.length 0 = (pre ++ [0]) ++ (bs ++ rest) := by
      rw [List.cons_append, set_append_length, List.append_assoc]
      rfl
    have hlen : pre.length + 1 = (pre ++ [0]).length := by simp
    rw [skip_blanks, hg, if_pos hc, hset, hlen,
      ih fuel (pre ++ [0]) rest (fun x hx => hbs x (List.mem_cons_of_mem _ hx)) hstop
        (by simp at hfuel; omega)]
    simp [List.replicate_succ, Nat.add_assoc, Nat.add_comm 1]

theorem skip_word_run : ∀ (wd : List Nat) (fuel : Nat) (pre rest : List Nat),
    (∀ c ∈ wd, c ≠ 0 ∧ isspace c = false) →
    ¬ (rest.headD 0 ≠ 0 ∧ isspace (rest.headD 0) = false) → wd.length < fuel →
    skip_word fuel (pre ++ (wd ++ rest)) pre.length = some (pre.length + wd.length) := by
  intro wd
  induction wd with
  | nil =>
    intro fuel pre rest _ hstop hfuel
    obtain ⟨fuel, rfl⟩ : ∃ f, fuel = f + 1 := ⟨fuel - 1, by simp at hfuel; omega⟩
    have hc : ¬ ((rest.headD 0 != 0 && !isspace (rest.headD 0)) = true) := by
      simpa using hstop
    rw [List.nil_append, skip_word, getD_append_head, if_neg hc]
    simp
  | cons c wd ih =>
    intro fuel pre rest hwd hstop hfuel
    obtain ⟨fuel, rfl⟩ : ∃ f, fuel = f + 1 := ⟨fuel - 1, by simp at hfuel; omega⟩
    obtain ⟨hc0, hcs⟩ := hwd c (List.mem_cons_self _ _)
    have hc : (c != 0 && !isspace c) = true := by simp [hc0, hcs]
    have hg : (pre ++ (c :: wd ++ rest)).getD pre.length 0 = c := by
      rw [getD_append_head]; rfl
    have hmove : pre ++ (c :: wd ++ rest) = (pre ++ [c]) ++ (wd ++ rest) := by simp
    have hlen : pre.length + 1 = (pre ++ [c]).length := by simp
    rw [skip_word, hg, if_pos hc, hmove, hlen,
      ih fuel (pre ++ [c]) rest (fun x hx => hwd x (List.mem_cons_of_mem _ hx)) hstop
        (by simp at hfuel; omega)]
    simp [Nat.add_assoc, Nat.add_comm 1]

/-! ## `argv_create` and the words -/

theorem sits_append (cells ext : List Nat) (q : Nat) (w : List Nat) (h : Sits cells q w)
    (he : ext.headD 0 = 0) : Sits (cells ++ ext) q w := by
  obtain ⟨h0, front, back, hc, hq, hb⟩ := h
  refine ⟨h0, front, back ++ ext, ?_, hq, ?_⟩
  · rw [hc]; simp
  · cases back with
    | nil => exact he
    | cons b bs => exact hb

/-- A word that sits at `q` is the string found at `q`. -/
theorem sits_cstring (cells : List Nat) (q : Nat) (w : List Nat) (h : Sits cells q w) :
    cstring cells q = w := by
  obtain ⟨h0, front, back, hc, hq, hb⟩ := h
  subst hq
  rw [hc]
  unfold cstring
  rw [drop_append_length, takeWhile_run w back (by
    intro c hc
    have : c ≠ 0 := fun h => h0 (h ▸ hc)
    simp [this])]
  cases back with
  | nil => simp
  | cons b bs =>
    have : b = 0 := hb
    subst this
    simp [List.takeWhile_cons]

theorem take_succ_set {α : Type} (l : List α) (i : Nat) (x : α) (h : i < l.length) :
    (l.set i x).take (i + 1) = l.take i ++ [x] := by
  induction l generalizing i with
  | nil => simp at h
  | cons a l ih =>
    cases i with
    | zero => simp
    | succ i =>
      simp only [List.length_cons, Nat.add_lt_add_iff_right] at h
      simp [ih i h]

theorem drop_set_lt {α : Type} (l : List α) (i m : Nat) (x : α) (h : i < m) :
    (l.set i x).drop m = l.drop m := by
  induction l generalizing i m with
  | nil => simp
  | cons a l ih =>
    cases m with
    | zero => omega
    | succ m =>
      cases i with
      | zero => simp
      | succ i => simp [ih i m (by omega)]

theorem headD_replicate_zero (k : Nat) (l : List Nat) (h : 0 < k) :
    (List.replicate k 0 ++ l).headD 0 = 0 := by
  obtain ⟨k, rfl⟩ : ∃ j, k = j + 1 := ⟨k - 1, by omega⟩
  rfl

/-- The loop of `argv_create`, with `n` iterations to go and `p` in front of the
text `rest`: it takes the first `n` words of `rest`, as many as there are,
stores a pointer to each in `argv` from index `i` on, and leaves each followed
by NUL or by `p`. -/
theorem argv_loop_words (argc : Int) :
    ∀ (n i : Nat) (pre rest tl : List Nat) (argv : List (Option Nat)),
      0 ∉ rest → tl.headD 0 = 0 → argc - 1 = ((i + n : Nat) : Int) → i + n < argv.length →
      ∃ (ext rest2 : List Nat) (qs : List Nat),
        argv_loop argc n (i : Int) (pre ++ (rest ++ tl)) pre.length argv
          = .ok (((i + qs.length : Nat) : Int), (pre ++ ext) ++ (rest2 ++ tl),
              (pre ++ ext).length,
              argv.take i ++ (qs.map some ++ argv.drop (i + qs.length))) ∧
        ((∀ x, rest.head? = some x → isspace x = true) → ext.headD 0 = 0) ∧
        List.Forall₂ (Sits (pre ++ ext)) qs ((words rest).take n) := by
  intro n
  induction n with
  | zero =>
    intro i pre rest tl argv _ _ hargc _
    refine ⟨[], rest, [], ?_, fun _ => rfl, by simp⟩
    have hi : ¬ ((i : Int) < argc - 1) := by rw [hargc]; simp
    rw [argv_loop, if_neg hi]
    simp
  | succ n ih =>
    intro i pre rest tl argv h0 htl hargc hroom
    have hi : (i : Int) < argc - 1 := by rw [hargc]; push_cast; omega
    obtain ⟨bs, rest1, hrest, hbs, hrest1⟩ := blank_split rest
    subst hrest
    have hbs0 : ∀ c ∈ bs, c ≠ 0 ∧ isspace c = true := fun c hc =>
      ⟨fun h => h0 (h ▸ List.mem_append_left _ hc), hbs c hc⟩
    have h0r1 : 0 ∉ rest1 := fun h => h0 (List.mem_append_right _ h)
    have hstop1 : ¬ ((rest1 ++ tl).headD 0 ≠ 0 ∧ isspace ((rest1 ++ tl).headD 0) = true) := by
      cases rest1 with
      | nil => rw [List.nil_append, htl]; simp
      | cons x r =>
        have : isspace x = false := hrest1 x rfl
        simp [this]
    have hblank := skip_blanks_run bs ((pre ++ (bs ++ (rest1 ++ tl))).length + 1) pre
      (rest1 ++ tl) hbs0 hstop1 (by simp; omega)
    have hlen1 : pre.length + bs.length = (pre ++ List.replicate bs.length 0).length := by simp
    have hwords1 : words (bs ++ rest1) = words rest1 := words_blanks_append bs rest1 hbs
    rw [argv_loop, if_pos hi, List.append_assoc, hblank]
    simp only []
    rw [hlen1, getD_append_head]
    cases rest1 with
    | nil =>
      rw [List.nil_append, if_pos htl]
      refine ⟨List.replicate bs.length 0, [], [], ?_, ?_, ?_⟩
      · simp
      · intro _
        cases bs <;> rfl
      · rw [hwords1, words_nil]
        simp
    | cons x r =>
      have hx : isspace x = false := hrest1 x rfl
      have hx0 : x ≠ 0 := fun h => h0r1 (h ▸ List.mem_cons_self _ _)
      have hhead : ((x :: r) ++ tl).headD 0 = x := rfl
      rw [hhead, if_neg hx0]
      have hstore : store_ptr argv (i : Int)
          (some (pre ++ List.replicate bs.length 0).length)
          = some (argv.set i (some (pre ++ List.replicate bs.length 0).length)) := by
        unfold store_ptr
        rw [if_pos ⟨by omega, by omega⟩, Int.toNat_ofNat]
      rw [hstore]
      simp only []
      obtain ⟨wd, rest2, hsplit, hwd, hrest2⟩ := word_split (x :: r)
      have hwdne : wd ≠ [] := by
        intro h
        rw [h, List.nil_append] at hsplit
        have := hrest2 x (by rw [← hsplit]; rfl)
        rw [hx] at this
        exact absurd this (by decide)
      rw [hsplit] at h0r1 hwords1 ⊢
      have hwd0 : ∀ c ∈ wd, c ≠ 0 ∧ isspace c = false := fun c hc =>
        ⟨fun h => h0r1 (h ▸ List.mem_append_left _ hc), hwd c hc⟩
      have h0r2 : 0 ∉ rest2 := fun h => h0r1 (List.mem_append_right _ h)
      have hstop2 : ¬ ((rest2 ++ tl).headD 0 ≠ 0 ∧ isspace ((rest2 ++ tl).headD 0) = false) := by
        cases rest2 with
        | nil => rw [List.nil_append, htl]; simp
        | cons y r2 =>
          have : isspace y = true := hrest2 y rfl
          simp [this]
      have hword := skip_word_run wd
        (((pre ++ List.replicate bs.length 0) ++ (wd ++ (rest2 ++ tl))).length + 1)
        (pre ++ List.replicate bs.length 0) (rest2 ++ tl) hwd0 hstop2 (by simp; omega)
      have hlen2 : (pre ++ List.replicate bs.length 0).length + wd.length
          = ((pre ++ List.replicate bs.length 0) ++ wd).length := by
        rw [List.length_append (pre ++ List.replicate bs.length 0) wd]
      have hmove : (pre ++ List.replicate bs.length 0) ++ (wd ++ (rest2 ++ tl))
          = ((pre ++ List.replicate bs.length 0) ++ wd) ++ (rest2 ++ tl) := by simp
      have hcast : (i : Int) + 1 = ((i + 1 : Nat) : Int) := by push_cast; rfl
      rw [List.append_assoc wd rest2 tl, hword]
      simp only []
      rw [hlen2, hmove, hcast]
      obtain ⟨ext2, rest3, qs2, heq, hhd, hall⟩ := ih (i + 1)
        ((pre ++ List.replicate bs.length 0) ++ wd) rest2 tl
        (argv.set i (some (pre ++ List.replicate bs.length 0).length)) h0r2 htl
        (by rw [hargc]; push_cast; omega) (by rw [List.length_set]; omega)
      have hext2 : ext2.headD 0 = 0 := hhd hrest2
      have hassoc : pre ++ (List.replicate bs.length 0 ++ (wd ++ ext2))
          = ((pre ++ List.replicate bs.length 0) ++ wd) ++ ext2 := by simp
      refine ⟨List.replicate bs.length 0 ++ (wd ++ ext2), rest3,
        (pre ++ List.replicate bs.length 0).length :: qs2, ?_, ?_, ?_⟩
      · rw [heq, hassoc, take_succ_set _ _ _ (by omega), drop_set_lt _ _ _ _ (by omega)]
        simp only [List.length_cons, List.map_cons, List.append_assoc, List.singleton_append,
          Except.ok.injEq, Prod.mk.injEq, true_and, and_true]
        have hidx : i + 1 + qs2.length = i + (qs2.length + 1) := by omega
        rw [hidx]
        exact ⟨rfl, rfl⟩
      · intro hP
        apply headD_replicate_zero
        cases bs with
        | nil =>
          have := hP x (by rw [List.nil_append, ← hsplit]; rfl)
          rw [hx] at this
          exact absurd this (by decide)
        | cons b bs => simp
      · rw [hwords1, words_word_append wd rest2 hwdne hwd hrest2, List.take_succ_cons, hassoc]
        refine List.Forall₂.cons ?_ hall
        exact ⟨fun h => (hwd0 0 h).1 rfl, pre ++ List.replicate bs.length 0, ext2,
          by simp, rfl, hext2⟩

theorem set_append_len {α : Type} (front back : List α) (x : α) :
    (front ++ back).set front.length x = front ++ back.set 0 x := by
  induction front with
  | nil => rfl
  | cons a front ih => simp [ih]

theorem headD_set_zero (l : List Nat) : (l.set 0 0).headD 0 = 0 := by
  cases l <;> rfl

theorem set_zero_drop {α : Type} (l : List α) (k : Nat) (x : α) (h : k < l.length) :
    (l.drop k).set 0 x = x :: l.drop (k + 1) := by
  induction l generalizing k with
  | nil => simp at h
  | cons a l ih =>
    cases k with
    | zero => simp
    | succ k =>
      simp only [List.length_cons, Nat.add_lt_add_iff_right] at h
      simpa using ih k h

theorem text_split (p : List Nat) :
    ∃ tl, p = cstring p 0 ++ tl ∧ tl.headD 0 = 0 := by
  refine ⟨p.dropWhile fun c => c != 0, ?_, ?_⟩
  · unfold cstring
    rw [List.drop_zero, List.takeWhile_append_dropWhile]
  · cases hd : p.dropWhile (fun c => c != 0) with
    | nil => rfl
    | cons y ys =>
      have := List.head_dropWhile_not (fun c => c != 0) p (by rw [hd]; simp)
      simp only [hd, List.head_cons] at this
      simpa using this

/-- C11: for `argc >= 1` and an array `argv` of at least `argc` entries,
`argv_create` returns `k`, the number of words of the string or `argc - 1` if
that is less.  The first `k` entries of `argv` are pointers `qs` into the
string, and the string found at the `i`-th of them is the `i`-th word of the
string as it was; entry `k` is the null pointer; the entries behind it are as
they were, so that no index above `argc - 1` is written. -/
theorem argv_create_words (p : List Nat) (argc : Int) (argv : List (Option Nat))
    (hargc : 1 ≤ argc) (hargv : argc.toNat ≤ argv.length) :
    ∃ qs : List Nat,
      (argv_create p argc argv).res
        = .ret ((min (words (cstring p 0)).length (argc - 1).toNat : Nat) : Int) ∧
      qs.length = min (words (cstring p 0)).length (argc - 1).toNat ∧
      (argv_create p argc argv).argv = qs.map some ++ none :: argv.drop (qs.length + 1) ∧
      List.Forall₂ (fun q w => cstring (argv_create p argc argv).p q = w) qs
        ((words (cstring p 0)).take (argc - 1).toNat) := by
  obtain ⟨tl, hp, htl⟩ := text_split p
  have h0 : 0 ∉ cstring p 0 := cstring_no_nul p 0
  generalize hn : (argc - 1).toNat = n
  have hargc2 : argc - 1 = ((0 + n : Nat) : Int) := by rw [← hn]; simp; omega
  have hroom : 0 + n < argv.length := by omega
  obtain ⟨ext, rest2, qs, heq, _, hall⟩ :=
    argv_loop_words argc n 0 [] (cstring p 0) tl argv h0 htl hargc2 hroom
  have hqs : qs.length = min (words (cstring p 0)).length n := by
    rw [hall.length_eq, List.length_take, Nat.min_comm]
  have hk : qs.length < argv.length := by omega
  simp only [List.nil_append, List.length_nil, Nat.cast_zero, Nat.zero_add, List.take_zero]
    at heq hall
  rw [← hp] at heq
  have hstore : store_ptr (qs.map some ++ argv.drop qs.length) ((qs.length : Nat) : Int) none
      = some (qs.map some ++ none :: argv.drop (qs.length + 1)) := by
    unfold store_ptr
    have hl : (qs.map some ++ argv.drop qs.length).length = argv.length := by
      simp only [List.length_append, List.length_map, List.length_drop]
      omega
    rw [if_pos ⟨by omega, by rw [hl]; exact_mod_cast hk⟩, Int.toNat_ofNat]
    have := set_append_len (qs.map some) (argv.drop qs.length) none
    rw [List.length_map] at this
    rw [this, set_zero_drop argv qs.length none hk]
  have hout : argv_create p argc argv
      = ⟨.ret (qs.length : Nat), ext ++ (rest2 ++ tl).set 0 0,
          qs.map some ++ none :: argv.drop (qs.length + 1)⟩ := by
    unfold argv_create
    rw [hn, heq]
    simp only []
    rw [hstore, set_append_len]
  rw [hout]
  refine ⟨qs, by rw [hqs], hqs, rfl, ?_⟩
  refine hall.imp ?_
  intro q w hs
  exact sits_cstring _ q w (sits_append ext _ q w hs (headD_set_zero _))

/-- C11 on `" ab  cd e"`: with room for two words, `argv_create` returns 2 and
leaves pointers to `"ab"` and `"cd"` and the null pointer in `argv`. -/
theorem argv_create_words_witness :
    (argv_create (cstr " ab  cd e") 3 [none, none, none]).res = .ret 2 ∧
    (argv_create (cstr " ab  cd e") 3 [none, none, none]).argv = [some 1, some 5, none] ∧
    cstring (argv_create (cstr " ab  cd e") 3 [none, none, none]).p 1 = cstr "ab" ∧
    cstring (argv_create (cstr " ab  cd e") 3 [none, none, none]).p 5 = cstr "cd" ∧
    words (cstring (cstr " ab  cd e") 0) = [cstr "ab", cstr "cd", cstr "e"] ∧
    ∃ qs : List Nat,
      (argv_create (cstr " ab  cd e") 3 [none, none, none]).res
        = .ret ((min (words (cstring (cstr " ab  cd e") 0)).length ((3 : Int) - 1).toNat : Nat)
            : Int) ∧
      qs.length = min (words (cstring (cstr " ab  cd e") 0)).length ((3 : Int) - 1).toNat ∧
      (argv_create (cstr " ab  cd e") 3 [none, none, none]).argv
        = qs.map some ++ none :: [none, none, none].drop (qs.length + 1) ∧
      List.Forall₂ (fun q w => cstring (argv_create (cstr " ab  cd e") 3 [none, none, none]).p q
          = w) qs
        ((words (cstring (cstr " ab  cd e") 0)).take ((3 : Int) - 1).toNat) :=
  ⟨by decide, by decide, by decide, by decide, by decide,
    argv_create_words (cstr " ab  cd e") 3 [none, none, none] (by decide) (by decide)⟩

end Utils
